import Mathlib

/-!
# Territory game engine — shallow embedding and verification

A shallow embedding of the Territory game engine (grid codec, order
validator, movement/combat/production resolution, terminal-condition
oracle, round driver) together with proofs of the specification's
quantified properties.

JavaScript strings are modelled as `List Char`; JavaScript `Map`s are
modelled as insertion-ordered association lists with an upsert
operation mirroring `Map.set`; JavaScript numbers holding integers are
modelled as `Int`.
-/

namespace Territory

/-! ## JavaScript string primitives -/

/-- JS whitespace characters relevant to `trim` / `parseInt`. -/
def isJsWhitespace (c : Char) : Bool :=
  c = ' ' || c = '\t' || c = '\n' || c = '\r' || c = '\x0b' || c = '\x0c'

/-- Model of `String.prototype.trim`. -/
def trimChars (s : List Char) : List Char :=
  ((s.dropWhile isJsWhitespace).reverse.dropWhile isJsWhitespace).reverse

/-- Model of `String.prototype.split(sep)` for a single-character
separator: always returns `count(sep) + 1` pieces. -/
def splitOnChar (sep : Char) : List Char → List (List Char)
  | [] => [[]]
  | c :: rest =>
    let r := splitOnChar sep rest
    if c = sep then [] :: r
    else
      match r with
      | [] => [[c]]
      | h :: t => (c :: h) :: t

/-- Model of `Array.prototype.join(sep)` for a single-character
separator. -/
def joinWith (sep : Char) : List (List Char) → List Char
  | [] => []
  | [p] => p
  | p :: ps => p ++ sep :: joinWith sep ps

/-! ## Decimal digits and `parseInt` -/

/-- Character for a decimal digit value. -/
def digitChar (n : Nat) : Char := Char.ofNat (48 + n)

/-- Decimal digit recognizer. -/
def isDigitChar (c : Char) : Bool := 48 ≤ c.toNat && c.toNat ≤ 57

/-- Numeric value of a decimal digit character. -/
def digitVal (c : Char) : Nat := c.toNat - 48

/-- Fuel-driven decimal rendering of a natural number, most significant
digit first (the recursion consumes at most one fuel per digit). -/
def natToDigitsAux : Nat → Nat → List Char
  | 0, _ => []
  | fuel + 1, n =>
    if n < 10 then [digitChar n]
    else natToDigitsAux fuel (n / 10) ++ [digitChar (n % 10)]

/-- Model of `Number.prototype.toString()` for a non-negative integer. -/
def natToDigits (n : Nat) : List Char := natToDigitsAux (n + 1) n

/-- Model of `Number.prototype.toString()` for an integer. -/
def intToChars (i : Int) : List Char :=
  if i < 0 then '-' :: natToDigits i.natAbs else natToDigits i.toNat

/-- Model of `String.prototype.padStart(3, '0')`. -/
def padStart3 (l : List Char) : List Char :=
  List.replicate (3 - l.length) '0' ++ l

/-- Value of the maximal decimal-digit prefix, given an accumulator
(the scan stops at the first non-digit character). -/
def parseDigitsAcc : List Char → Nat → Nat
  | [], acc => acc
  | c :: rest, acc =>
    if isDigitChar c then parseDigitsAcc rest (acc * 10 + digitVal c) else acc

/-- Model of `parseInt(s, 10)`: skip leading whitespace, optional sign,
then a maximal non-empty run of decimal digits; `none` models `NaN`. -/
def jsParseInt (s : List Char) : Option Int :=
  match s.dropWhile isJsWhitespace with
  | [] => none
  | c :: rest =>
    if c = '-' then
      match rest with
      | [] => none
      | d :: _ => if isDigitChar d then some (-(parseDigitsAcc rest 0 : Int)) else none
    else if c = '+' then
      match rest with
      | [] => none
      | d :: _ => if isDigitChar d then some ((parseDigitsAcc rest 0 : Int)) else none
    else if isDigitChar c then some ((parseDigitsAcc (c :: rest) 0 : Int))
    else none

/-! ## Grid data model (`grid-utils.ts`) -/

/-- One square of the board (`GridSquare` in `grid-utils.ts`).
`playerId` is `'.'` for Neutral, a lowercase letter for a player. -/
structure GridSquare where
  units : Int
  playerId : Char
  isResource : Bool
deriving DecidableEq, Repr

instance : Inhabited GridSquare := ⟨⟨0, '.', false⟩⟩

/-- The board, column-major as in the source: `grid[x][y]`. -/
abbrev Grid := List (List GridSquare)

/-- `grid[x][y]` with JS-like defaulting (only used in bounds). -/
def sq (g : Grid) (x y : Nat) : GridSquare := (g.getD x []).getD y default

/-- Every column has the board's own length (square board). -/
def wellFormed (g : Grid) : Prop := ∀ col ∈ g, col.length = g.length

/-- Build a `mapSize × mapSize` grid from a per-coordinate function;
models the source's nested `for x / for y` construction loops. -/
def mkGrid (n : Nat) (f : Nat → Nat → GridSquare) : Grid :=
  (List.range n).map fun x => (List.range n).map fun y => f x y

/-- `getPlayerIdChar` from `grid-utils.ts`: `'a' + playerIndex`. -/
def getPlayerIdChar (playerIndex : Nat) : Char := Char.ofNat (97 + playerIndex)

/-- A coordinate on the board (`Coordinate` in `types.ts`). -/
structure Coordinate where
  x : Int
  y : Int
deriving DecidableEq, Repr

/-- `getSquare` from `grid-utils.ts`: bounds-checked lookup. -/
def getSquare (g : Grid) (c : Coordinate) : Option GridSquare :=
  if 0 ≤ c.x ∧ c.x < (g.length : Int) ∧ 0 ≤ c.y ∧ c.y < ((g.getD c.x.toNat []).length : Int) then
    some ((g.getD c.x.toNat []).getD c.y.toNat default)
  else none

/-! ## Grid codec (`serializeGrid` / `parseGrid` in `grid-utils.ts`) -/

/-- `formatSquare`: `units.toString().padStart(3, '0')` then the player
marker then the square-type marker. -/
def formatSquare (s : GridSquare) : List Char :=
  padStart3 (intToChars s.units) ++ [s.playerId, if s.isResource then '+' else '.']

/-- `serializeGrid`: rows joined by newlines, squares joined by `|`. -/
def serializeGrid (g : Grid) : List Char :=
  joinWith '\n' ((List.range g.length).map fun y =>
    joinWith '|' ((List.range g.length).map fun x => formatSquare (sq g x y)))

/-- The structured content of the `Invalid grid: …` errors thrown by
`parseGrid`. -/
inductive GridError where
  | emptyState
  | nonSquare (y got expected : Nat)
  | invalidFormat (x y : Nat)
  | invalidUnitCount (x y : Nat)
  | invalidTypeMarker (x y : Nat)
deriving DecidableEq, Repr

/-- Parse one 5-character square token (checks in source order: length,
`parseInt` of the unit slice, type marker). -/
def parseSquareTok (tok : List Char) (x y : Nat) : Except GridError GridSquare :=
  if tok.length ≠ 5 then .error (.invalidFormat x y)
  else
    match jsParseInt (tok.take 3) with
    | none => .error (.invalidUnitCount x y)
    | some units =>
      let typeMarker := tok.getD 4 ' '
      if typeMarker ≠ '+' ∧ typeMarker ≠ '.' then .error (.invalidTypeMarker x y)
      else .ok ⟨units, tok.getD 3 ' ', typeMarker = '+'⟩

/-- Parse the tokens of one row, with running column index `x`. -/
def parseTokens : List (List Char) → Nat → Nat → Except GridError (List GridSquare)
  | [], _, _ => .ok []
  | t :: ts, x, y => do
    let s ← parseSquareTok t x y
    let rest ← parseTokens ts (x + 1) y
    .ok (s :: rest)

/-- Parse all rows (each must split into exactly `n` tokens). -/
def parseRows : List (List Char) → Nat → Nat → Except GridError (List (List GridSquare))
  | [], _, _ => .ok []
  | row :: rs, y, n =>
    let toks := splitOnChar '|' row
    if toks.length ≠ n then .error (.nonSquare y toks.length n)
    else do
      let parsed ← parseTokens toks 0 y
      let rest ← parseRows rs (y + 1) n
      .ok (parsed :: rest)

/-- Transpose the row-major parse result into the column-major grid the
source builds (`grid[x][y] = rows[y][x]`). -/
def colMajor (n : Nat) (rows : List (List GridSquare)) : Grid :=
  (List.range n).map fun x => rows.map fun r => r.getD x default

/-- `parseGrid`: reject empty/whitespace input, split into rows, parse
each row, and assemble the column-major grid. -/
def parseGrid (s : List Char) : Except GridError Grid :=
  if trimChars s = [] then .error .emptyState
  else
    let rows := splitOnChar '\n' s
    match parseRows rows 0 rows.length with
    | .error e => .error e
    | .ok parsed => .ok (colMajor rows.length parsed)

/-! ## JS `Map` model -/

/-- `Map.set`-style upsert on an insertion-ordered association list:
update the existing entry in place (adding to its value, which is how
every map in the source is used), or append a new entry. -/
def upsertAdd {κ : Type} [DecidableEq κ] : List (κ × Int) → κ → Int → List (κ × Int)
  | [], k, u => [(k, u)]
  | (q, v) :: rest, k, u =>
    if q = k then (q, v + u) :: rest else (q, v) :: upsertAdd rest k u

/-- First-match association lookup (`Map.get`). -/
def lookupKey {κ : Type} [DecidableEq κ] : List (κ × Int) → κ → Option Int
  | [], _ => none
  | (q, v) :: rest, k => if q = k then some v else lookupKey rest k

/-! ## Movement model (`movement.ts`, `utils.ts`) -/

/-- Direction of an order. -/
inductive Dir where
  | U | D | L | R
deriving DecidableEq, Repr

/-- `getTargetCoord` from `utils.ts`. -/
def getTargetCoord (c : Coordinate) (d : Dir) : Coordinate :=
  match d with
  | .U => ⟨c.x, c.y - 1⟩
  | .D => ⟨c.x, c.y + 1⟩
  | .L => ⟨c.x - 1, c.y⟩
  | .R => ⟨c.x + 1, c.y⟩

/-- A validated order (`Command` in `types.ts`); `fromCoord` models the
source's `from` field (a Lean keyword). -/
structure Command where
  fromCoord : Coordinate
  direction : Dir
  unitCount : Int
deriving DecidableEq, Repr

/-- A unit movement (`Movement` in `movement.ts`); `fromCoord`/`toCoord`
model the source's `from`/`to` fields. -/
structure Movement where
  fromCoord : Coordinate
  toCoord : Coordinate
  playerId : Char
  units : Int
deriving DecidableEq, Repr

/-- `commandsToMovements`: player `i`'s commands become movements owned
by `getPlayerIdChar i`, targeting `getTargetCoord`. -/
def commandsToMovements (commands : List (List Command)) : List (Movement) :=
  (commands.enum.map fun p =>
    p.2.map fun cmd =>
      Movement.mk cmd.fromCoord (getTargetCoord cmd.fromCoord cmd.direction)
        (getPlayerIdChar p.1) cmd.unitCount).flatten

/-- The source coordinate of a movement lies on an `n × n` board. -/
def fromInBounds (n : Nat) (m : Movement) : Prop :=
  0 ≤ m.fromCoord.x ∧ m.fromCoord.x < (n : Int) ∧ 0 ≤ m.fromCoord.y ∧ m.fromCoord.y < (n : Int)

instance (n : Nat) (m : Movement) : Decidable (fromInBounds n m) := by
  unfold fromInBounds; infer_instance

/-- Total units leaving each source coordinate (`unitsLeaving` map in
`applyMovementsFromSources`; the string key `"x,y"` is injective in the
coordinate, so the coordinate itself serves as key). -/
def unitsLeaving (moves : List Movement) : List (Coordinate × Int) :=
  moves.foldl (fun acc m => upsertAdd acc m.fromCoord m.units) []

/-- `applyMovementsFromSources`: clamp-at-zero debit of each source
square, neutralizing squares that reach zero. `none` models the crash a
movement from an off-board coordinate would cause in the source. -/
def debitSquare (g : Grid) (moves : List Movement) (x y : Nat) : GridSquare :=
  match lookupKey (unitsLeaving moves) ⟨(x : Int), (y : Int)⟩ with
  | none => sq g x y
  | some u =>
    let newUnits := max 0 ((sq g x y).units - u)
    { units := newUnits
      playerId := if newUnits = 0 then '.' else (sq g x y).playerId
      isResource := (sq g x y).isResource }

def applyMovementsFromSources (g : Grid) (moves : List Movement) : Option Grid :=
  if ∀ m ∈ moves, fromInBounds g.length m then
    some (mkGrid g.length (debitSquare g moves))
  else none

/-! ## Combat resolver (`combat.ts`) -/

/-- One insertion step of the stable descending-by-units sort the source
performs with `sort((a, b) => b[1] - a[1])`. -/
def insertDesc (a : Char × Int) : List (Char × Int) → List (Char × Int)
  | [] => [a]
  | b :: rest => if b.2 > a.2 then b :: insertDesc a rest else a :: b :: rest

/-- Stable sort of force entries, descending by unit count (ties keep
their insertion order, as JS's stable `Array.prototype.sort` does). -/
def sortForcesDesc : List (Char × Int) → List (Char × Int)
  | [] => []
  | a :: rest => insertDesc a (sortForcesDesc rest)

/-- `resolveSquareCombat`: empty forces → Neutral; one force → it holds;
otherwise the top force keeps `first − second` units if positive, else
the square becomes Neutral with all units destroyed. Result is
`(units, playerId)`. -/
def resolveSquareCombat (forces : List (Char × Int)) : Int × Char :=
  match forces with
  | [] => (0, '.')
  | [(p, u)] => (u, p)
  | _ :: _ :: _ =>
    match sortForcesDesc forces with
    | (firstPlayer, firstUnits) :: (_, secondUnits) :: _ =>
      if firstUnits - secondUnits > 0 then (firstUnits - secondUnits, firstPlayer)
      else (0, '.')
    | _ => (0, '.')

/-- The destination coordinate of a movement lies on an `n × n` board. -/
def toInBounds (n : Nat) (m : Movement) : Prop :=
  0 ≤ m.toCoord.x ∧ m.toCoord.x < (n : Int) ∧ 0 ≤ m.toCoord.y ∧ m.toCoord.y < (n : Int)

instance (n : Nat) (m : Movement) : Decidable (toInBounds n m) := by
  unfold toInBounds; infer_instance

/-- The forces accumulated at square `(x, y)`: the non-Neutral incumbent
seeds the map, then each movement into the square adds its units to its
owner's entry. -/
def forcesAt (g : Grid) (moves : List Movement) (x y : Nat) : List (Char × Int) :=
  (moves.filter fun m => m.toCoord = ⟨(x : Int), (y : Int)⟩).foldl
    (fun f m => upsertAdd f m.playerId m.units)
    (if (sq g x y).playerId = '.' then [] else [((sq g x y).playerId, (sq g x y).units)])

/-- `resolveCombat`: resolve every square from its forces snapshot,
preserving `isResource`. `none` models the crash a movement into an
off-board coordinate would cause in the source. -/
def combatSquare (g : Grid) (moves : List Movement) (x y : Nat) : GridSquare :=
  { units := (resolveSquareCombat (forcesAt g moves x y)).1
    playerId := (resolveSquareCombat (forcesAt g moves x y)).2
    isResource := (sq g x y).isResource }

def resolveCombat (g : Grid) (moves : List Movement) : Option Grid :=
  if ∀ m ∈ moves, toInBounds g.length m then
    some (mkGrid g.length (combatSquare g moves))
  else none

/-! ## Production (`production.ts`) -/

/-- The configuration fields the resolution core reads
(`GameConfig` in `types.ts`, restricted to the consumed options). -/
structure GameConfig where
  MAX_ROUNDS : Int
  BASE_PRODUCTION : Int
  RESOURCE_PRODUCTION : Int
  PRODUCTION_CAP : Int
deriving DecidableEq, Repr

/-- `applyProduction`: occupied squares strictly below the cap gain
their production, clamped to the cap with `Math.min`. -/
def produceSquare (g : Grid) (config : GameConfig) (x y : Nat) : GridSquare :=
  let square := sq g x y
  if square.playerId ≠ '.' ∧ square.units < config.PRODUCTION_CAP then
    { square with
      units := min config.PRODUCTION_CAP
        (square.units + if square.isResource then config.RESOURCE_PRODUCTION else config.BASE_PRODUCTION) }
  else square

def applyProduction (g : Grid) (config : GameConfig) : Grid :=
  mkGrid g.length (produceSquare g config)

/-- `calculatePlayerUnits`: initialize players `a..` with 0, then add
each occupied square's units to its owner (x-major traversal). -/
def calculatePlayerUnits (g : Grid) (numPlayers : Nat) : List (Char × Int) :=
  (((List.range g.length).map fun x => (List.range g.length).map fun y => sq g x y).flatten).foldl
    (fun acc s => if s.playerId ≠ '.' then upsertAdd acc s.playerId s.units else acc)
    ((List.range numPlayers).map fun i => (getPlayerIdChar i, (0 : Int)))

/-! ## Terminal-condition oracle (`end-conditions.ts`) -/

/-- The non-`undefined` values `checkEndConditions` can return: a single
winner (a player-id string), a timeout tie (an array), or `null` for the
annihilation draw. -/
inductive JsVerdict where
  | winner (p : Char)
  | multiWinner (ps : List Char)
  | draw
deriving DecidableEq, Repr

/-- The first player whose units strictly exceed half the total
(`units > totalUnits / 2` on JS numbers is `2 * units > totalUnits` on
integers, the comparison being exact in floating point here). -/
def findDominator : List (Char × Int) → Int → Option Char
  | [], _ => none
  | (p, u) :: rest, total =>
    if 2 * u > total then some p else findDominator rest total

/-- `checkEndConditions`: annihilation draw, then domination, then
timeout (players tied for the maximum), else `none` (= `undefined`,
game continues). -/
def checkEndConditions (playerUnits : List (Char × Int)) (currentRound maxRounds : Int) :
    Option JsVerdict :=
  if playerUnits.foldl (fun a e => a + e.2) 0 = 0 then some .draw
  else
    match findDominator playerUnits (playerUnits.foldl (fun a e => a + e.2) 0) with
    | some p => some (.winner p)
    | none =>
      if currentRound ≥ maxRounds then
        some (match ((sortForcesDesc playerUnits).filter fun e =>
            e.2 = ((sortForcesDesc playerUnits).headD ('.', 0)).2).map Prod.fst with
          | [p] => .winner p
          | ps => .multiWinner ps)
      else none

/-! ## Order validator (`parseCommand` / `validateCommand` /
`parsePlayerCommands` in `commands/next.ts`) -/

/-- String literal as a character list. -/
def strL (s : String) : List Char := s.toList

/-- `String.prototype.toUpperCase` (ASCII). -/
def jsToUpper (s : List Char) : List Char := s.map Char.toUpper

/-- `isValidDirection` from `utils.ts`, combined with reading the
direction: the uppercased token must be exactly `U`, `D`, `L` or `R`. -/
def parseDir (s : List Char) : Option Dir :=
  if s = ['U'] then some .U
  else if s = ['D'] then some .D
  else if s = ['L'] then some .L
  else if s = ['R'] then some .R
  else none

/-- Render a coordinate as `(x,y)`, as the error messages do. -/
def coordStr (c : Coordinate) : List Char :=
  ['('] ++ intToChars c.x ++ [','] ++ intToChars c.y ++ [')']

/-- `parseCommand`: split a trimmed token on commas into exactly four
trimmed parts `x,y,direction,count`; checks in source order. -/
def parseCommand (cmdStr : List Char) : Except (List Char) Command :=
  let parts := (splitOnChar ',' (trimChars cmdStr)).map trimChars
  if parts.length ≠ 4 then
    .error (strL ("Invalid command format \"") ++ cmdStr ++
      strL ("\". Expected: x,y,direction,count (e.g., \"3,4,R,5\")"))
  else
    let xv := jsParseInt (parts.getD 0 [])
    let yv := jsParseInt (parts.getD 1 [])
    let direction := jsToUpper (parts.getD 2 [])
    let uv := jsParseInt (parts.getD 3 [])
    match xv, yv with
    | some x, some y =>
      match parseDir direction with
      | none =>
        .error (strL ("Invalid direction \"") ++ direction ++ strL ("\" in \"") ++ cmdStr ++
          strL ("\". Must be U (up), D (down), L (left), or R (right)"))
      | some d =>
        match uv with
        | some u =>
          if u ≤ 0 then
            .error (strL ("Invalid unit count in \"") ++ cmdStr ++
              strL ("\". Must be a positive number greater than 0"))
          else .ok ⟨⟨x, y⟩, d, u⟩
        | none =>
          .error (strL ("Invalid unit count in \"") ++ cmdStr ++
            strL ("\". Must be a positive number greater than 0"))
    | _, _ =>
      .error (strL ("Invalid coordinates in \"") ++ cmdStr ++
        strL ("\". Both x and y must be numbers (e.g., \"3,4,R,5\")"))

/-- `validateCommand`: bounds of the source, ownership, per-order unit
availability, bounds of the target. Returns the error message or
`none` for a valid command. -/
def validateCommand (cmd : Command) (playerId : Char) (grid : Grid) (mapSize : Int) :
    Option (List Char) :=
  if ¬ (0 ≤ cmd.fromCoord.x ∧ cmd.fromCoord.x < mapSize ∧
        0 ≤ cmd.fromCoord.y ∧ cmd.fromCoord.y < mapSize) then
    some (strL ("Source coordinate ") ++ coordStr cmd.fromCoord ++
      strL (" is out of bounds. Map size is ") ++ intToChars mapSize ++ ['x'] ++
      intToChars mapSize ++ strL (" (0-") ++ intToChars (mapSize - 1) ++ [')'])
  else
    match getSquare grid cmd.fromCoord with
    | none => some (strL ("Source coordinate ") ++ coordStr cmd.fromCoord ++ strL (" is invalid"))
    | some sourceSquare =>
      if sourceSquare.playerId ≠ playerId then
        some (strL ("Square ") ++ coordStr cmd.fromCoord ++
          strL (" does not belong to player ") ++ [playerId] ++
          strL (". Currently owned by ") ++
          (if sourceSquare.playerId = '.' then strL ("neutral")
           else strL ("player ") ++ [sourceSquare.playerId]))
      else if sourceSquare.units < cmd.unitCount then
        some (strL ("Insufficient units at ") ++ coordStr cmd.fromCoord ++ strL (". Has ") ++
          intToChars sourceSquare.units ++ strL (" units, trying to move ") ++
          intToChars cmd.unitCount)
      else
        let target := getTargetCoord cmd.fromCoord cmd.direction
        if ¬ (0 ≤ target.x ∧ target.x < mapSize ∧ 0 ≤ target.y ∧ target.y < mapSize) then
          some (strL ("Target coordinate ") ++ coordStr target ++
            strL (" is out of bounds. Map size is ") ++ intToChars mapSize ++ ['x'] ++
            intToChars mapSize ++ strL (" (0-") ++ intToChars (mapSize - 1) ++ [')'])
        else none

/-- `Map.set`-style upsert that overwrites the value (the validator
stores the already-summed running total). -/
def upsertSet {κ : Type} [DecidableEq κ] : List (κ × Int) → κ → Int → List (κ × Int)
  | [], k, u => [(k, u)]
  | (q, v) :: rest, k, u =>
    if q = k then (q, u) :: rest else (q, v) :: upsertSet rest k u

/-- `Player ${playerId}: ${e}` prefix used on parse/validation errors. -/
def playerErrorWrap (playerId : Char) (e : List Char) : List Char :=
  strL ("Player ") ++ [playerId] ++ strL (": ") ++ e

/-- The cumulative-availability error message:
`Player p: Total units from (x,y) would be t, but only u available`. -/
def cumulativeErrorMsg (playerId : Char) (c : Coordinate) (totalUsed avail : Int) : List Char :=
  strL ("Player ") ++ [playerId] ++ strL (": Total units from (") ++ intToChars c.x ++
    [','] ++ intToChars c.y ++ strL (") would be ") ++ intToChars totalUsed ++
    strL (", but only ") ++ intToChars avail ++ strL (" available")

/-- The per-token loop of `parsePlayerCommands`: parse, validate, then
check the running per-source total against the square's units. -/
def processTokens (playerId : Char) (grid : Grid) (mapSize : Int) :
    List (List Char) → List (Coordinate × Int) → List Command → Except (List Char) (List Command)
  | [], _, commands => .ok commands
  | cmdStr :: rest, unitsUsedPerSquare, commands =>
    match parseCommand cmdStr with
    | .error e => .error (playerErrorWrap playerId e)
    | .ok cmd =>
      match validateCommand cmd playerId grid mapSize with
      | some e => .error (playerErrorWrap playerId e)
      | none =>
        let usedSoFar := (lookupKey unitsUsedPerSquare cmd.fromCoord).getD 0
        let totalUsed := usedSoFar + cmd.unitCount
        match getSquare grid cmd.fromCoord with
        | some sourceSquare =>
          if totalUsed > sourceSquare.units then
            .error (cumulativeErrorMsg playerId cmd.fromCoord totalUsed sourceSquare.units)
          else
            processTokens playerId grid mapSize rest
              (upsertSet unitsUsedPerSquare cmd.fromCoord totalUsed) (commands ++ [cmd])
        | none =>
          processTokens playerId grid mapSize rest
            (upsertSet unitsUsedPerSquare cmd.fromCoord totalUsed) (commands ++ [cmd])

/-- `parsePlayerCommands` (`commands/next.ts`): empty/whitespace line
means no orders; otherwise split on `|`, bound the count, then run the
parse/validate/cumulative loop. -/
def parsePlayerCommands (line : List Char) (playerId : Char) (grid : Grid) (mapSize : Int)
    (maxCommands : Int) : Except (List Char) (List Command) :=
  if trimChars line = [] then .ok []
  else
    let cmdStrings := splitOnChar '|' line
    if (cmdStrings.length : Int) > maxCommands then
      .error (strL ("Too many commands (") ++ intToChars cmdStrings.length ++
        strL ("). Maximum is ") ++ intToChars maxCommands)
    else processTokens playerId grid mapSize cmdStrings [] []

/-! ## Round driver (`resolve.ts`, `commands/next.ts`) -/

/-- One round's record (`RoundRecord` in `types.ts`): the stored
`gridState` is the board at the start of the round. -/
structure RoundRecord where
  roundNumber : Int
  declarations : List (List Char)
  commands : List (List Command)
  gridState : List Char
deriving DecidableEq, Repr

/-- The complete game state (`GameState` in `types.ts`); `winner = none`
models the JS `undefined` (game ongoing). -/
structure GameState where
  gameId : List Char
  config : GameConfig
  numPlayers : Nat
  currentRound : Int
  rounds : List RoundRecord
  winner : Option JsVerdict
deriving DecidableEq, Repr

/-- `resolveRound` (`resolve.ts`): parse the current round's board,
debit sources, resolve combat, apply production, consult the oracle,
then either record the verdict or append the next (empty) round.
`none` models the crashes of the source on malformed state. -/
def resolveRound (gameState : GameState) : Option GameState :=
  match gameState.rounds.getLast? with
  | none => none
  | some currentRound =>
    match parseGrid currentRound.gridState with
    | .error _ => none
    | .ok grid =>
      let movements := commandsToMovements currentRound.commands
      match applyMovementsFromSources grid movements with
      | none => none
      | some g1 =>
        match resolveCombat g1 movements with
        | none => none
        | some g2 =>
          let g3 := applyProduction g2 gameState.config
          let playerUnits := calculatePlayerUnits g3 gameState.numPlayers
          match checkEndConditions playerUnits currentRound.roundNumber
              gameState.config.MAX_ROUNDS with
          | some w => some { gameState with winner := some w }
          | none =>
            some { gameState with
              rounds := gameState.rounds ++
                [⟨currentRound.roundNumber + 1, [], [], serializeGrid g3⟩]
              currentRound := currentRound.roundNumber + 1 }

/-- The guard at the top of `nextCommand` (`commands/next.ts`): once a
winner is recorded, every further phase transition is rejected. -/
def nextCommandGate (gameState : GameState) : Except (List Char) Unit :=
  if gameState.winner ≠ none then
    .error (strL ("Game \"") ++ gameState.gameId ++
      strL ("\" is already over. Use 'state ") ++ gameState.gameId ++
      strL ("' to view the final results."))
  else .ok ()

/-! ## Claim-side measures -/

/-- Total units a list of commands sends out of coordinate `c`. -/
def sumFrom (cmds : List Command) (c : Coordinate) : Int :=
  ((cmds.filter fun k => k.fromCoord = c).map Command.unitCount).sum

/-- Total units a list of movements takes out of coordinate `c`. -/
def sumLeavingAt (moves : List Movement) (c : Coordinate) : Int :=
  ((moves.filter fun m => m.fromCoord = c).map Movement.units).sum

/-- Total units a list of movements sends into coordinate `c`. -/
def sumIntoAt (moves : List Movement) (c : Coordinate) : Int :=
  ((moves.filter fun m => m.toCoord = c).map Movement.units).sum

/-! ## Basic lemmas on grids -/

theorem getD_map_range {α : Type} (f : Nat → α) {n x : Nat} (hx : x < n) (d : α) :
    ((List.range n).map f).getD x d = f x := by
  rw [List.getD_eq_getElem?_getD, List.getElem?_map, List.getElem?_range hx]
  rfl

theorem length_mkGrid (n : Nat) (f : Nat → Nat → GridSquare) : (mkGrid n f).length = n := by
  simp [mkGrid]

theorem sq_mkGrid (n : Nat) (f : Nat → Nat → GridSquare) {x y : Nat} (hx : x < n) (hy : y < n) :
    sq (mkGrid n f) x y = f x y := by
  unfold sq mkGrid
  rw [getD_map_range _ hx, getD_map_range _ hy]

theorem wellFormed_mkGrid (n : Nat) (f : Nat → Nat → GridSquare) : wellFormed (mkGrid n f) := by
  intro col hcol
  simp only [mkGrid, List.mem_map] at hcol
  obtain ⟨x, -, rfl⟩ := hcol
  simp [mkGrid]

theorem length_applyProduction (g : Grid) (config : GameConfig) :
    (applyProduction g config).length = g.length := length_mkGrid _ _

/-! ## Sorting lemmas for the combat resolver -/

theorem insertDesc_perm (a : Char × Int) (l : List (Char × Int)) :
    List.Perm (insertDesc a l) (a :: l) := by
  induction l with
  | nil => simp [insertDesc]
  | cons b rest ih =>
    by_cases h : b.2 > a.2
    · simp only [insertDesc, if_pos h]
      exact (ih.cons b).trans (List.Perm.swap a b rest)
    · simp [insertDesc, h]

theorem sortForcesDesc_perm (l : List (Char × Int)) : List.Perm (sortForcesDesc l) l := by
  induction l with
  | nil => simp [sortForcesDesc]
  | cons a rest ih =>
    exact (insertDesc_perm a (sortForcesDesc rest)).trans (ih.cons a)

theorem insertDesc_sorted {l : List (Char × Int)} (a : Char × Int)
    (h : l.Pairwise fun x y => y.2 ≤ x.2) :
    (insertDesc a l).Pairwise fun x y => y.2 ≤ x.2 := by
  induction l with
  | nil => simp [insertDesc]
  | cons b rest ih =>
    rw [List.pairwise_cons] at h
    obtain ⟨hb, hrest⟩ := h
    by_cases hba : b.2 > a.2
    · simp only [insertDesc, if_pos hba]
      rw [List.pairwise_cons]
      refine ⟨?_, ih hrest⟩
      intro x hx
      rcases List.mem_cons.mp ((insertDesc_perm a rest).mem_iff.mp hx) with rfl | hxr
      · omega
      · exact hb x hxr
    · simp only [insertDesc, if_neg hba]
      rw [List.pairwise_cons]
      constructor
      · intro x hx
        rcases List.mem_cons.mp hx with rfl | hxr
        · omega
        · exact le_trans (hb x hxr) (by omega)
      · exact List.pairwise_cons.mpr ⟨hb, hrest⟩

theorem sortForcesDesc_sorted (l : List (Char × Int)) :
    (sortForcesDesc l).Pairwise fun x y => y.2 ≤ x.2 := by
  induction l with
  | nil => simp [sortForcesDesc]
  | cons a rest ih => exact insertDesc_sorted a ih

/-! ## C1 — combat award at a contested square -/

/-- **C1.** With two or more force entries, sorting descending by unit
count with top two counts `u1, u2`: if `u1 > u2` the highest-unit owner
holds the square with exactly `u1 − u2` units (all other forces are
annihilated, the result being that single holder); if `u1 = u2` the
square becomes Neutral with 0 units (all contenders' units are
destroyed, runner-ups included). -/
theorem combat_award_spec (forces : List (Char × Int)) (p1 p2 : Char) (u1 u2 : Int)
    (rest : List (Char × Int))
    (hsort : sortForcesDesc forces = (p1, u1) :: (p2, u2) :: rest) :
    (u2 < u1 → resolveSquareCombat forces = (u1 - u2, p1)
        ∧ (p1, u1) ∈ forces ∧ ∀ e ∈ forces, e.2 ≤ u1)
    ∧ (u1 = u2 → resolveSquareCombat forces = (0, '.')) := by
  have hperm := sortForcesDesc_perm forces
  rw [hsort] at hperm
  have hlen : 2 ≤ forces.length := by
    have := hperm.length_eq
    simp only [List.length_cons] at this
    omega
  obtain ⟨a, b, t, rfl⟩ : ∃ a b t, forces = a :: b :: t := by
    cases forces with
    | nil => simp at hlen
    | cons a f2 =>
      cases f2 with
      | nil => simp at hlen
      | cons b t => exact ⟨a, b, t, rfl⟩
  have hres : resolveSquareCombat (a :: b :: t) =
      if u1 - u2 > 0 then (u1 - u2, p1) else (0, '.') := by
    simp only [resolveSquareCombat, hsort]
  have hsorted := sortForcesDesc_sorted (a :: b :: t)
  rw [hsort] at hsorted
  constructor
  · intro hlt
    refine ⟨by rw [hres, if_pos (by omega)], hperm.subset (by simp), ?_⟩
    intro e he
    have hmem : e ∈ (p1, u1) :: (p2, u2) :: rest := hperm.mem_iff.mpr he
    rcases List.mem_cons.mp hmem with rfl | htail
    · exact le_refl _
    · exact (List.pairwise_cons.mp hsorted).1 e htail
  · intro heq
    rw [hres, if_neg (by omega)]

/-! ## C2 — production is clamped at the cap (corrected) -/

/-- **C2 counterexample.** A resource square with 20 units under cap 21
and resource production 2 ends with 21 units, not the 22 the claim
requires: `Math.min` clamps the result at the cap. -/
theorem production_cap_not_crossed :
    applyProduction [[⟨20, 'a', true⟩]] ⟨15, 1, 2, 21⟩ = [[⟨21, 'a', true⟩]] ∧
    applyProduction [[⟨20, 'a', true⟩]] ⟨15, 1, 2, 21⟩ ≠ [[⟨22, 'a', true⟩]] := by
  constructor
  · rfl
  · decide

/-- **C2 (amended).** Production adds `resourceProduction` (if
`isResource`) or `baseProduction` to each square whose owner is not
Neutral and whose units are strictly below `productionCap`, clamping
the result to `productionCap` (`Math.min`); squares at or above the cap
are unchanged and Neutral squares never produce. -/
theorem applyProduction_threshold_clamp (g : Grid) (config : GameConfig) (x y : Nat)
    (hx : x < g.length) (hy : y < g.length) :
    ((sq g x y).playerId = '.' → sq (applyProduction g config) x y = sq g x y)
    ∧ (config.PRODUCTION_CAP ≤ (sq g x y).units →
        sq (applyProduction g config) x y = sq g x y)
    ∧ ((sq g x y).playerId ≠ '.' → (sq g x y).units < config.PRODUCTION_CAP →
        sq (applyProduction g config) x y =
          { sq g x y with
            units := min config.PRODUCTION_CAP ((sq g x y).units +
              if (sq g x y).isResource then config.RESOURCE_PRODUCTION
              else config.BASE_PRODUCTION) }) := by
  unfold applyProduction
  rw [sq_mkGrid _ _ hx hy]
  unfold produceSquare
  refine ⟨?_, ?_, ?_⟩
  · intro h
    rw [if_neg]
    simp [h]
  · intro h
    rw [if_neg]
    simp [not_lt.mpr h]
  · intro h1 h2
    rw [if_pos ⟨h1, h2⟩]

/-- Witness for C2's amended theorem: a sub-cap resource square at 20
under cap 21 produces to exactly 21. -/
theorem applyProduction_threshold_clamp_witness :
    sq (applyProduction [[⟨20, 'a', true⟩]] ⟨15, 1, 2, 21⟩) 0 0 = ⟨21, 'a', true⟩ := by
  have h := (applyProduction_threshold_clamp [[⟨20, 'a', true⟩]] ⟨15, 1, 2, 21⟩ 0 0
    (by decide) (by decide)).2.2 (by decide) (by decide)
  rw [h]
  decide

/-- Witness for C1: forces `a=5, b=3` award the square to `a` with 2
units; the tie branch is exercised through the same theorem at equal
top counts. -/
theorem combat_award_spec_witness :
    resolveSquareCombat [('a', 5), ('b', 3)] = (2, 'a') ∧
    resolveSquareCombat [('a', 5), ('b', 5), ('c', 3)] = (0, '.') := by
  constructor
  · have h := (combat_award_spec [('a', 5), ('b', 3)] 'a' 'b' 5 3 [] (by decide)).1 (by decide)
    exact h.1
  · exact (combat_award_spec [('a', 5), ('b', 5), ('c', 3)] 'a' 'b' 5 5 [('c', 3)]
      (by decide)).2 (by decide)

/-! ## Association-list map lemmas -/

theorem lookupKey_upsertAdd {κ : Type} [DecidableEq κ] (l : List (κ × Int)) (k k' : κ)
    (u : Int) :
    lookupKey (upsertAdd l k u) k' =
      if k' = k then some ((lookupKey l k).getD 0 + u) else lookupKey l k' := by
  induction l with
  | nil =>
    simp only [upsertAdd, lookupKey]
    by_cases h : k' = k
    · subst h
      simp
    · rw [if_neg (fun hh => h hh.symm), if_neg h]
  | cons e rest ih =>
    obtain ⟨q, v⟩ := e
    by_cases hqk : q = k
    · subst hqk
      simp only [upsertAdd, if_pos rfl]
      by_cases h : k' = q
      · subst h
        simp [lookupKey]
      · simp only [lookupKey, if_neg (fun hh : q = k' => h hh.symm), if_neg h]
    · simp only [upsertAdd, if_neg hqk]
      by_cases h : q = k'
      · subst h
        rw [if_neg (fun hh : q = k => hqk hh)]
        simp [lookupKey]
      · simp only [lookupKey, if_neg h]
        rw [ih]
        by_cases hk : k' = k
        · rw [if_pos hk, if_pos hk, if_neg hqk]
        · rw [if_neg hk, if_neg hk]

theorem lookupKey_upsertAdd_foldl {κ : Type} [DecidableEq κ] (ms : List (κ × Int))
    (init : List (κ × Int)) (k : κ) :
    lookupKey (ms.foldl (fun acc e => upsertAdd acc e.1 e.2) init) k =
      if ∃ e ∈ ms, e.1 = k then
        some ((lookupKey init k).getD 0 + ((ms.filter fun e => e.1 = k).map Prod.snd).sum)
      else lookupKey init k := by
  induction ms generalizing init with
  | nil => simp
  | cons e ms ih =>
    simp only [List.foldl_cons]
    rw [ih]
    by_cases he : e.1 = k
    · have hl : lookupKey (upsertAdd init e.1 e.2) k = some ((lookupKey init k).getD 0 + e.2) := by
        rw [lookupKey_upsertAdd, if_pos he.symm, he]
      have hex : ∃ x ∈ e :: ms, x.1 = k := ⟨e, by simp, he⟩
      rw [if_pos hex]
      have hfil : (e :: ms).filter (fun x => x.1 = k) = e :: ms.filter (fun x => x.1 = k) := by
        simp [List.filter_cons, he]
      by_cases hms : ∃ x ∈ ms, x.1 = k
      · rw [if_pos hms, hl, hfil]
        simp only [List.map_cons, List.sum_cons, Option.getD_some]
        ring_nf
      · rw [if_neg hms, hl, hfil]
        have : ms.filter (fun x => x.1 = k) = [] := by
          rw [List.filter_eq_nil_iff]
          intro x hx
          simp only [decide_eq_true_eq]
          exact fun hh => hms ⟨x, hx, hh⟩
        simp [this]
    · have hl : lookupKey (upsertAdd init e.1 e.2) k = lookupKey init k := by
        rw [lookupKey_upsertAdd, if_neg (fun hh => he hh.symm)]
      have hiff : (∃ x ∈ e :: ms, x.1 = k) ↔ ∃ x ∈ ms, x.1 = k := by
        constructor
        · rintro ⟨x, hx, hxk⟩
          rcases List.mem_cons.mp hx with rfl | hxm
          · exact absurd hxk he
          · exact ⟨x, hxm, hxk⟩
        · rintro ⟨x, hx, hxk⟩
          exact ⟨x, List.mem_cons_of_mem _ hx, hxk⟩
      have hfil : (e :: ms).filter (fun x => x.1 = k) = ms.filter (fun x => x.1 = k) := by
        simp [List.filter_cons, he]
      by_cases hms : ∃ x ∈ ms, x.1 = k
      · rw [if_pos hms, if_pos (hiff.mpr hms), hl, hfil]
      · rw [if_neg hms, if_neg (fun hh => hms (hiff.mp hh)), hl]

theorem lookupKey_unitsLeaving (moves : List Movement) (c : Coordinate) :
    lookupKey (unitsLeaving moves) c =
      if ∃ m ∈ moves, m.fromCoord = c then some (sumLeavingAt moves c) else none := by
  have hfold : unitsLeaving moves =
      (moves.map fun m => (m.fromCoord, m.units)).foldl (fun acc e => upsertAdd acc e.1 e.2) [] := by
    rw [List.foldl_map]
    rfl
  rw [hfold, lookupKey_upsertAdd_foldl]
  have hiff : (∃ e ∈ moves.map fun m => (m.fromCoord, m.units), e.1 = c) ↔
      ∃ m ∈ moves, m.fromCoord = c := by
    simp
  have hfil : (((moves.map fun m => (m.fromCoord, m.units)).filter fun e => e.1 = c).map
      Prod.snd).sum = sumLeavingAt moves c := by
    rw [List.filter_map, List.map_map]
    unfold sumLeavingAt
    congr 1
  by_cases hex : ∃ m ∈ moves, m.fromCoord = c
  · rw [if_pos (hiff.mpr hex), if_pos hex, hfil]
    simp [lookupKey]
  · rw [if_neg (fun hh => hex (hiff.mp hh)), if_neg hex]
    rfl

theorem sumLeavingAt_eq_zero {moves : List Movement} {c : Coordinate}
    (h : ¬ ∃ m ∈ moves, m.fromCoord = c) : sumLeavingAt moves c = 0 := by
  unfold sumLeavingAt
  have : moves.filter (fun m => m.fromCoord = c) = [] := by
    rw [List.filter_eq_nil_iff]
    intro m hm
    simp only [decide_eq_true_eq]
    exact fun hh => h ⟨m, hm, hh⟩
  simp [this]

/-! ## C10 — the source debit clamps at zero and neutralizes -/

/-- **C10.** For every (square, non-negative-unit) grid and every list
of movements with on-board sources — validated or not — the source
debit returns a grid: every square has `units ≥ 0`, the subtraction is
clamped at zero (`max 0 (units − leaving)`), and every square whose
unit count reaches 0 has owner Neutral. No invariant violation is
signalled. -/
theorem movement_debit_safety (g : Grid) (moves : List Movement)
    (_hwf : wellFormed g)
    (hunits : ∀ x y, x < g.length → y < g.length → 0 ≤ (sq g x y).units)
    (hfrom : ∀ m ∈ moves, fromInBounds g.length m) :
    ∃ g', applyMovementsFromSources g moves = some g'
      ∧ (∀ x y, x < g.length → y < g.length → 0 ≤ (sq g' x y).units)
      ∧ (∀ x y, x < g.length → y < g.length →
          (sq g' x y).units = max 0 ((sq g x y).units - sumLeavingAt moves ⟨(x : Int), (y : Int)⟩))
      ∧ (∀ x y, x < g.length → y < g.length →
          0 < (sq g x y).units → (sq g' x y).units = 0 → (sq g' x y).playerId = '.') := by
  unfold applyMovementsFromSources
  rw [if_pos hfrom]
  refine ⟨_, rfl, ?_, ?_, ?_⟩
  · intro x y hx hy
    rw [sq_mkGrid _ _ hx hy]
    unfold debitSquare
    rw [lookupKey_unitsLeaving]
    by_cases hex : ∃ m ∈ moves, m.fromCoord = (⟨(x : Int), (y : Int)⟩ : Coordinate)
    · rw [if_pos hex]
      exact le_max_left 0 _
    · rw [if_neg hex]
      exact hunits x y hx hy
  · intro x y hx hy
    rw [sq_mkGrid _ _ hx hy]
    unfold debitSquare
    rw [lookupKey_unitsLeaving]
    by_cases hex : ∃ m ∈ moves, m.fromCoord = (⟨(x : Int), (y : Int)⟩ : Coordinate)
    · rw [if_pos hex]
    · rw [if_neg hex, sumLeavingAt_eq_zero hex]
      have h0 := hunits x y hx hy
      show (sq g x y).units = max 0 ((sq g x y).units - 0)
      omega
  · intro x y hx hy hpos hzero
    rw [sq_mkGrid _ _ hx hy] at hzero ⊢
    unfold debitSquare at hzero ⊢
    rw [lookupKey_unitsLeaving] at hzero ⊢
    by_cases hex : ∃ m ∈ moves, m.fromCoord = (⟨(x : Int), (y : Int)⟩ : Coordinate)
    · rw [if_pos hex] at hzero ⊢
      have hz : max 0 ((sq g x y).units -
          sumLeavingAt moves ⟨(x : Int), (y : Int)⟩) = 0 := hzero
      show (if max 0 ((sq g x y).units -
          sumLeavingAt moves ⟨(x : Int), (y : Int)⟩) = 0 then '.'
        else (sq g x y).playerId) = '.'
      rw [if_pos hz]
    · rw [if_neg hex] at hzero
      have hz : (sq g x y).units = 0 := hzero
      omega

/-- Witness for C10: an unvalidated over-debit (99 units leaving a
5-unit square) is clamped to zero and the square becomes Neutral. -/
theorem movement_debit_safety_witness :
    ∃ g', applyMovementsFromSources [[⟨5, 'a', false⟩]]
        [⟨⟨0, 0⟩, ⟨0, 1⟩, 'a', 99⟩] = some g'
      ∧ (∀ x y, x < 1 → y < 1 → 0 ≤ (sq g' x y).units) := by
  obtain ⟨g', h1, h2, -, -⟩ := movement_debit_safety [[⟨5, 'a', false⟩]]
    [⟨⟨0, 0⟩, ⟨0, 1⟩, 'a', 99⟩]
    (by intro col hcol; rw [List.mem_singleton] at hcol; subst hcol; rfl)
    (by
      intro x y hx hy
      have hx0 : x = 0 := by simpa using hx
      have hy0 : y = 0 := by simpa using hy
      subst hx0; subst hy0; decide)
    (by intro m hm; rw [List.mem_singleton] at hm; subst hm; decide)
  exact ⟨g', h1, h2⟩

/-! ## Lemmas for the terminal-condition oracle -/

theorem foldl_add_snd (l : List (Char × Int)) (a : Int) :
    l.foldl (fun a e => a + e.2) a = a + (l.map Prod.snd).sum := by
  induction l generalizing a with
  | nil => simp
  | cons e rest ih =>
    simp only [List.foldl_cons, List.map_cons, List.sum_cons, ih]
    ring

theorem entry_le_sum {l : List (Char × Int)} {p : Char} {u : Int}
    (hpu : (p, u) ∈ l) (hnn : ∀ e ∈ l, 0 ≤ e.2) : u ≤ (l.map Prod.snd).sum := by
  induction l with
  | nil => simp at hpu
  | cons e rest ih =>
    simp only [List.map_cons, List.sum_cons]
    rcases List.mem_cons.mp hpu with rfl | hmem
    · have : 0 ≤ (rest.map Prod.snd).sum := by
        apply List.sum_nonneg
        intro x hx
        obtain ⟨y, hy, rfl⟩ := List.mem_map.mp hx
        exact hnn y (List.mem_cons_of_mem _ hy)
      simp only
      omega
    · have h1 := ih hmem (fun x hx => hnn x (List.mem_cons_of_mem _ hx))
      have h2 := hnn e (List.mem_cons_self _ _)
      omega

theorem two_dominators {l : List (Char × Int)} {p q : Char} {u v : Int}
    (hnn : ∀ e ∈ l, 0 ≤ e.2) (hpu : (p, u) ∈ l) (hqv : (q, v) ∈ l)
    (hu : 2 * u > (l.map Prod.snd).sum) (hv : 2 * v > (l.map Prod.snd).sum) :
    (p, u) = (q, v) := by
  induction l with
  | nil => simp at hpu
  | cons e rest ih =>
    have hnr : ∀ x ∈ rest, 0 ≤ x.2 := fun x hx => hnn x (List.mem_cons_of_mem _ hx)
    have he : 0 ≤ e.2 := hnn e (List.mem_cons_self _ _)
    have hS : (((e :: rest).map Prod.snd).sum) = e.2 + (rest.map Prod.snd).sum := by simp
    rcases List.mem_cons.mp hpu with heq | hpm
    · rcases List.mem_cons.mp hqv with heq2 | hqm
      · rw [heq, heq2]
      · exfalso
        have hvle := entry_le_sum hqm hnr
        have hu2 : e.2 = u := by rw [← heq]
        rw [hS] at hu hv
        omega
    · rcases List.mem_cons.mp hqv with heq2 | hqm
      · exfalso
        have hule := entry_le_sum hpm hnr
        have hv2 : e.2 = v := by rw [← heq2]
        rw [hS] at hu hv
        omega
      · exact ih hnr hpm hqm (by rw [hS] at hu; omega) (by rw [hS] at hv; omega)

theorem findDominator_eq_of {l : List (Char × Int)} {p : Char} {u : Int} {total : Int}
    (hnn : ∀ e ∈ l, 0 ≤ e.2) (hsum : (l.map Prod.snd).sum ≤ total)
    (hpu : (p, u) ∈ l) (hu : 2 * u > total) :
    findDominator l total = some p := by
  induction l with
  | nil => simp at hpu
  | cons e rest ih =>
    have hnr : ∀ x ∈ rest, 0 ≤ x.2 := fun x hx => hnn x (List.mem_cons_of_mem _ hx)
    have he : 0 ≤ e.2 := hnn e (List.mem_cons_self _ _)
    have hS : ((e :: rest).map Prod.snd).sum = e.2 + (rest.map Prod.snd).sum := by simp
    by_cases hdom : 2 * e.2 > total
    · simp only [findDominator, if_pos hdom]
      rcases List.mem_cons.mp hpu with rfl | hpm
      · rfl
      · exfalso
        have hule := entry_le_sum hpm hnr
        omega
    · simp only [findDominator, if_neg hdom]
      rcases List.mem_cons.mp hpu with rfl | hpm
      · exact absurd hu hdom
      · exact ih hnr (by omega) hpm

theorem findDominator_none {l : List (Char × Int)} {total : Int}
    (h : ∀ e ∈ l, ¬ 2 * e.2 > total) : findDominator l total = none := by
  induction l with
  | nil => rfl
  | cons e rest ih =>
    simp only [findDominator, if_neg (h e (List.mem_cons_self _ _))]
    exact ih fun x hx => h x (List.mem_cons_of_mem _ hx)

theorem sortForcesDesc_head_max {l : List (Char × Int)} {p : Char} {u : Int}
    (hpu : (p, u) ∈ l) (hmax : ∀ e ∈ l, e.2 ≤ u) :
    ((sortForcesDesc l).headD ('.', 0)).2 = u := by
  have hperm := sortForcesDesc_perm l
  have hsorted := sortForcesDesc_sorted l
  cases hs : sortForcesDesc l with
  | nil =>
    rw [hs] at hperm
    have : l = [] := (List.perm_nil.mp hperm.symm)
    rw [this] at hpu
    simp at hpu
  | cons h t =>
    rw [hs] at hperm hsorted
    simp only [List.headD_cons]
    have hh : h ∈ l := hperm.subset (List.mem_cons_self _ _)
    have h1 : h.2 ≤ u := hmax h hh
    have h2 : u ≤ h.2 := by
      have hm : (p, u) ∈ h :: t := hperm.mem_iff.mpr hpu
      rcases List.mem_cons.mp hm with heq | hht
      · rw [← heq]
      · exact (List.pairwise_cons.mp hsorted).1 _ hht
    omega

theorem filter_eq_singleton_of_mem {l : List (Char × Int)} {p : Char} {u : Int}
    (hmem : (p, u) ∈ l) (hlen : (l.filter fun e => e.2 = u).length = 1) :
    l.filter (fun e => e.2 = u) = [(p, u)] := by
  obtain ⟨a, ha⟩ := List.length_eq_one.mp hlen
  have hin : (p, u) ∈ l.filter (fun e => e.2 = u) := List.mem_filter.mpr ⟨hmem, by simp⟩
  rw [ha] at hin ⊢
  rw [List.mem_singleton] at hin
  rw [hin]

/-! ## C3 — terminal-condition oracle -/

/-- **C3.** On per-player totals with global sum `T`: `Draw` when
`T = 0`; else the unique player strictly above `T/2` wins (at most one
such player exists by arithmetic); else at `currentRound ≥ maxRounds`
the players tied for the maximum win — `Winner` if a singleton,
`MultiWinner` for two or more; else `Ongoing` — with priority
annihilation ≻ domination ≻ timeout. -/
theorem end_conditions_spec (playerUnits : List (Char × Int)) (currentRound maxRounds : Int)
    (hnn : ∀ e ∈ playerUnits, 0 ≤ e.2) :
    ((playerUnits.map Prod.snd).sum = 0 →
        checkEndConditions playerUnits currentRound maxRounds = some .draw)
    ∧ (∀ p u, (p, u) ∈ playerUnits → 2 * u > (playerUnits.map Prod.snd).sum →
        checkEndConditions playerUnits currentRound maxRounds = some (.winner p)
        ∧ ∀ q v, (q, v) ∈ playerUnits → 2 * v > (playerUnits.map Prod.snd).sum → q = p)
    ∧ ((∀ e ∈ playerUnits, 2 * e.2 ≤ (playerUnits.map Prod.snd).sum) →
        (playerUnits.map Prod.snd).sum ≠ 0 → maxRounds ≤ currentRound →
        ∀ p u, (p, u) ∈ playerUnits → (∀ e ∈ playerUnits, e.2 ≤ u) →
          ((playerUnits.filter fun e => e.2 = u).length = 1 →
              checkEndConditions playerUnits currentRound maxRounds = some (.winner p))
          ∧ (2 ≤ (playerUnits.filter fun e => e.2 = u).length →
              ∃ ws, checkEndConditions playerUnits currentRound maxRounds =
                  some (.multiWinner ws)
                ∧ List.Perm ws ((playerUnits.filter fun e => e.2 = u).map Prod.fst)))
    ∧ ((∀ e ∈ playerUnits, 2 * e.2 ≤ (playerUnits.map Prod.snd).sum) →
        (playerUnits.map Prod.snd).sum ≠ 0 → currentRound < maxRounds →
        checkEndConditions playerUnits currentRound maxRounds = none) := by
  have htot : playerUnits.foldl (fun a e => a + e.2) 0 = (playerUnits.map Prod.snd).sum := by
    rw [foldl_add_snd]
    ring
  refine ⟨?_, ?_, ?_, ?_⟩
  · intro hT
    unfold checkEndConditions
    rw [htot, if_pos hT]
  · intro p u hpu hdom
    have hTne : (playerUnits.map Prod.snd).sum ≠ 0 := by
      intro h0
      have hle := entry_le_sum hpu hnn
      omega
    constructor
    · unfold checkEndConditions
      rw [htot, if_neg hTne,
        findDominator_eq_of hnn (le_refl _) hpu hdom]
    · intro q v hqv hv
      have := two_dominators hnn hpu hqv hdom hv
      exact (Prod.mk.injEq _ _ _ _ ▸ this).1.symm
  · intro hnodom hTne hround p u hpu hmax
    have hnone : findDominator playerUnits ((playerUnits.map Prod.snd).sum) = none :=
      findDominator_none (by intro e he; have := hnodom e he; omega)
    have hhead := sortForcesDesc_head_max hpu hmax
    have hwperm : List.Perm ((sortForcesDesc playerUnits).filter fun e => e.2 = u)
        (playerUnits.filter fun e => e.2 = u) := (sortForcesDesc_perm _).filter _
    have hstep : checkEndConditions playerUnits currentRound maxRounds =
        some (match ((sortForcesDesc playerUnits).filter fun e =>
            e.2 = u).map Prod.fst with
          | [p] => .winner p
          | ps => .multiWinner ps) := by
      unfold checkEndConditions
      rw [htot, if_neg hTne, hnone, hhead]
      show (if currentRound ≥ maxRounds then _ else none) = _
      rw [if_pos hround]
    constructor
    · intro hlen1
      have hfil : playerUnits.filter (fun e => e.2 = u) = [(p, u)] :=
        filter_eq_singleton_of_mem hpu hlen1
      have : (sortForcesDesc playerUnits).filter (fun e => e.2 = u) = [(p, u)] := by
        rw [hfil] at hwperm
        exact List.perm_singleton.mp hwperm
      rw [hstep, this]
      rfl
    · intro hlen2
      refine ⟨((sortForcesDesc playerUnits).filter fun e => e.2 = u).map Prod.fst,
        ?_, hwperm.map _⟩
      rw [hstep]
      have hlen : 2 ≤ (((sortForcesDesc playerUnits).filter fun e => e.2 = u).map
          Prod.fst).length := by
        rw [List.length_map, hwperm.length_eq]
        exact hlen2
      obtain ⟨w1, t1, hws⟩ : ∃ a t,
          ((sortForcesDesc playerUnits).filter fun e => e.2 = u).map Prod.fst = a :: t := by
        cases h : ((sortForcesDesc playerUnits).filter fun e => e.2 = u).map Prod.fst with
        | nil => rw [h] at hlen; simp at hlen
        | cons a t => exact ⟨a, t, rfl⟩
      rw [hws] at hlen ⊢
      cases t1 with
      | nil => simp at hlen
      | cons w2 t2 => rfl
  · intro hnodom hTne hround
    have hnone : findDominator playerUnits ((playerUnits.map Prod.snd).sum) = none :=
      findDominator_none (by intro e he; have := hnodom e he; omega)
    unfold checkEndConditions
    rw [htot, if_neg hTne, hnone]
    show (if currentRound ≥ maxRounds then _ else none) = none
    rw [if_neg (by omega)]

/-- Witness for C3: totals `a = 6, b = 2` let `a` win by domination. -/
theorem end_conditions_spec_witness :
    checkEndConditions [('a', 6), ('b', 2)] 1 15 = some (.winner 'a') := by
  have h := ((end_conditions_spec [('a', 6), ('b', 2)] 1 15
    (by intro e he; fin_cases he <;> decide)).2.1 'a' 6 (by simp) (by decide)).1
  exact h

/-! ## Permutation lemmas for force accumulation -/

theorem map_fst_upsertAdd {κ : Type} [DecidableEq κ] (l : List (κ × Int)) (k : κ) (u : Int) :
    (upsertAdd l k u).map Prod.fst =
      if k ∈ l.map Prod.fst then l.map Prod.fst else l.map Prod.fst ++ [k] := by
  induction l with
  | nil => simp [upsertAdd]
  | cons e rest ih =>
    obtain ⟨q, v⟩ := e
    by_cases hqk : q = k
    · subst hqk
      simp [upsertAdd]
    · have hne : ¬ k = q := fun h => hqk h.symm
      by_cases hk : k ∈ rest.map Prod.fst
      · simp [upsertAdd, hqk, ih, hk, hne]
      · simp [upsertAdd, hqk, ih, hk, hne]

theorem nodup_upsertAdd {κ : Type} [DecidableEq κ] {l : List (κ × Int)} (k : κ) (u : Int)
    (h : (l.map Prod.fst).Nodup) : ((upsertAdd l k u).map Prod.fst).Nodup := by
  rw [map_fst_upsertAdd]
  by_cases hk : k ∈ l.map Prod.fst
  · rw [if_pos hk]
    exact h
  · rw [if_neg hk]
    simp [List.nodup_append, h, hk]

theorem upsertAdd_perm {κ : Type} [DecidableEq κ] {l₁ l₂ : List (κ × Int)}
    (h : List.Perm l₁ l₂) (k : κ) (u : Int) (hnd : (l₁.map Prod.fst).Nodup) :
    List.Perm (upsertAdd l₁ k u) (upsertAdd l₂ k u) := by
  induction h with
  | nil => exact List.Perm.refl _
  | cons e hperm ih =>
    simp only [List.map_cons, List.nodup_cons] at hnd
    by_cases he : e.1 = k
    · show List.Perm (upsertAdd (e :: _) k u) (upsertAdd (e :: _) k u)
      simp only [upsertAdd]
      obtain ⟨q, v⟩ := e
      simp only at he
      rw [if_pos he, if_pos he]
      exact hperm.cons _
    · show List.Perm (upsertAdd (e :: _) k u) (upsertAdd (e :: _) k u)
      simp only [upsertAdd]
      obtain ⟨q, v⟩ := e
      simp only at he
      rw [if_neg he, if_neg he]
      exact (ih hnd.2).cons _
  | swap a b t =>
    simp only [List.map_cons, List.nodup_cons, List.mem_cons] at hnd
    obtain ⟨ac, av⟩ := a
    obtain ⟨bc, bv⟩ := b
    have hab : ¬ bc = ac := fun h => hnd.1 (Or.inl h)
    by_cases hak : ac = k
    · subst hak
      have h1 : upsertAdd ((bc, bv) :: (ac, av) :: t) ac u = (bc, bv) :: (ac, av + u) :: t := by
        simp [upsertAdd, hab]
      have h2 : upsertAdd ((ac, av) :: (bc, bv) :: t) ac u = (ac, av + u) :: (bc, bv) :: t := by
        simp [upsertAdd]
      rw [h1, h2]
      exact List.Perm.swap _ _ _
    · by_cases hbk : bc = k
      · subst hbk
        have h1 : upsertAdd ((bc, bv) :: (ac, av) :: t) bc u = (bc, bv + u) :: (ac, av) :: t := by
          simp [upsertAdd]
        have h2 : upsertAdd ((ac, av) :: (bc, bv) :: t) bc u =
            (ac, av) :: (bc, bv + u) :: t := by
          simp [upsertAdd, hak]
        rw [h1, h2]
        exact List.Perm.swap _ _ _
      · have h1 : upsertAdd ((bc, bv) :: (ac, av) :: t) k u =
            (bc, bv) :: (ac, av) :: upsertAdd t k u := by
          simp [upsertAdd, hak, hbk]
        have h2 : upsertAdd ((ac, av) :: (bc, bv) :: t) k u =
            (ac, av) :: (bc, bv) :: upsertAdd t k u := by
          simp [upsertAdd, hak, hbk]
        rw [h1, h2]
        exact List.Perm.swap _ _ _
  | trans h₁ h₂ ih₁ ih₂ =>
    exact (ih₁ hnd).trans (ih₂ (((h₁.map Prod.fst).nodup_iff).mp hnd))

theorem upsertAdd_upsertAdd_same {κ : Type} [DecidableEq κ] (l : List (κ × Int)) (k : κ)
    (u v : Int) : upsertAdd (upsertAdd l k u) k v = upsertAdd l k (u + v) := by
  induction l with
  | nil => simp [upsertAdd, add_assoc]
  | cons e rest ih =>
    obtain ⟨q, w⟩ := e
    by_cases hqk : q = k
    · subst hqk
      simp [upsertAdd, add_assoc]
    · simp [upsertAdd, hqk, ih]

theorem upsertAdd_comm {κ : Type} [DecidableEq κ] (init : List (κ × Int)) (a b : κ × Int) :
    List.Perm (upsertAdd (upsertAdd init b.1 b.2) a.1 a.2)
      (upsertAdd (upsertAdd init a.1 a.2) b.1 b.2) := by
  by_cases hab : a.1 = b.1
  · rw [hab, upsertAdd_upsertAdd_same, upsertAdd_upsertAdd_same, add_comm]
  · have hba : ¬ b.1 = a.1 := fun h => hab h.symm
    induction init with
    | nil =>
      have h1 : upsertAdd (upsertAdd [] b.1 b.2) a.1 a.2 = [(b.1, b.2), (a.1, a.2)] := by
        simp [upsertAdd, hab, hba]
      have h2 : upsertAdd (upsertAdd [] a.1 a.2) b.1 b.2 = [(a.1, a.2), (b.1, b.2)] := by
        simp [upsertAdd, hab, hba]
      rw [h1, h2]
      exact List.Perm.swap _ _ _
    | cons e rest ih =>
      obtain ⟨q, v⟩ := e
      by_cases hqa : q = a.1
      · subst hqa
        have h1 : upsertAdd (upsertAdd ((a.1, v) :: rest) b.1 b.2) a.1 a.2 =
            (a.1, v + a.2) :: upsertAdd rest b.1 b.2 := by
          simp [upsertAdd, hab, hba]
        have h2 : upsertAdd (upsertAdd ((a.1, v) :: rest) a.1 a.2) b.1 b.2 =
            (a.1, v + a.2) :: upsertAdd rest b.1 b.2 := by
          simp [upsertAdd, hab, hba]
        rw [h1, h2]
      · by_cases hqb : q = b.1
        · subst hqb
          have h1 : upsertAdd (upsertAdd ((b.1, v) :: rest) b.1 b.2) a.1 a.2 =
              (b.1, v + b.2) :: upsertAdd rest a.1 a.2 := by
            simp [upsertAdd, hab, hba]
          have h2 : upsertAdd (upsertAdd ((b.1, v) :: rest) a.1 a.2) b.1 b.2 =
              (b.1, v + b.2) :: upsertAdd rest a.1 a.2 := by
            simp [upsertAdd, hab, hba]
          rw [h1, h2]
        · have h1 : upsertAdd (upsertAdd ((q, v) :: rest) b.1 b.2) a.1 a.2 =
              (q, v) :: upsertAdd (upsertAdd rest b.1 b.2) a.1 a.2 := by
            simp [upsertAdd, hqa, hqb, hab, hba]
          have h2 : upsertAdd (upsertAdd ((q, v) :: rest) a.1 a.2) b.1 b.2 =
              (q, v) :: upsertAdd (upsertAdd rest a.1 a.2) b.1 b.2 := by
            simp [upsertAdd, hqa, hqb, hab, hba]
          rw [h1, h2]
          exact ih.cons _

theorem foldl_upsertAdd_init_perm {κ : Type} [DecidableEq κ] (t : List (κ × Int))
    {i₁ i₂ : List (κ × Int)} (h : List.Perm i₁ i₂) (hnd : (i₁.map Prod.fst).Nodup) :
    List.Perm (t.foldl (fun acc e => upsertAdd acc e.1 e.2) i₁)
      (t.foldl (fun acc e => upsertAdd acc e.1 e.2) i₂) := by
  induction t generalizing i₁ i₂ with
  | nil => exact h
  | cons e t ih =>
    simp only [List.foldl_cons]
    exact ih (upsertAdd_perm h e.1 e.2 hnd) (nodup_upsertAdd e.1 e.2 hnd)

theorem foldl_upsertAdd_perm {κ : Type} [DecidableEq κ] {ms ms' : List (κ × Int)}
    (h : List.Perm ms ms') (init : List (κ × Int)) (hnd : (init.map Prod.fst).Nodup) :
    List.Perm (ms.foldl (fun acc e => upsertAdd acc e.1 e.2) init)
      (ms'.foldl (fun acc e => upsertAdd acc e.1 e.2) init) := by
  induction h generalizing init with
  | nil => exact List.Perm.refl _
  | cons e hperm ih =>
    simp only [List.foldl_cons]
    exact ih _ (nodup_upsertAdd e.1 e.2 hnd)
  | swap a b t =>
    simp only [List.foldl_cons]
    refine foldl_upsertAdd_init_perm t ?_
      (nodup_upsertAdd a.1 a.2 (nodup_upsertAdd b.1 b.2 hnd))
    exact upsertAdd_comm init a b
  | trans h₁ h₂ ih₁ ih₂ =>
    exact (ih₁ init hnd).trans (ih₂ init hnd)

theorem exists_cons_cons_of_two_le {α : Type} {l : List α} (h : 2 ≤ l.length) :
    ∃ x y t, l = x :: y :: t := by
  cases l with
  | nil => simp at h
  | cons x l1 =>
    cases l1 with
    | nil => simp at h
    | cons y t => exact ⟨x, y, t, rfl⟩

theorem sorted_head_ge {a : Char × Int} {t : List (Char × Int)}
    (h : (a :: t).Pairwise fun x y => y.2 ≤ x.2) : ∀ e ∈ a :: t, e.2 ≤ a.2 := by
  intro e he
  rcases List.mem_cons.mp he with rfl | hm
  · exact le_refl _
  · exact (List.pairwise_cons.mp h).1 e hm

theorem resolveSquareCombat_perm {f f' : List (Char × Int)} (h : List.Perm f f') :
    resolveSquareCombat f = resolveSquareCombat f' := by
  cases f with
  | nil =>
    rw [List.perm_nil.mp h.symm]
  | cons a f1 =>
    cases f1 with
    | nil =>
      rw [List.perm_singleton.mp h.symm]
    | cons b f2 =>
      have hlen' : 2 ≤ f'.length := by
        rw [← h.length_eq]
        simp
      obtain ⟨a', b', t', rfl⟩ := exists_cons_cons_of_two_le hlen'
      have hs1 : 2 ≤ (sortForcesDesc (a :: b :: f2)).length := by
        rw [(sortForcesDesc_perm _).length_eq]
        simp
      have hs2 : 2 ≤ (sortForcesDesc (a' :: b' :: t')).length := by
        rw [(sortForcesDesc_perm _).length_eq]
        simp
      obtain ⟨x1, x2, r, hseq⟩ := exists_cons_cons_of_two_le hs1
      obtain ⟨y1, y2, r', hseq'⟩ := exists_cons_cons_of_two_le hs2
      obtain ⟨p1, u1⟩ := x1
      obtain ⟨p2, u2⟩ := x2
      obtain ⟨q1, v1⟩ := y1
      obtain ⟨q2, v2⟩ := y2
      have hsortedS := sortForcesDesc_sorted (a :: b :: f2)
      have hsortedS' := sortForcesDesc_sorted (a' :: b' :: t')
      rw [hseq] at hsortedS
      rw [hseq'] at hsortedS'
      have hpermSS : List.Perm ((p1, u1) :: (p2, u2) :: r) ((q1, v1) :: (q2, v2) :: r') := by
        rw [← hseq, ← hseq']
        exact (sortForcesDesc_perm _).trans (h.trans (sortForcesDesc_perm _).symm)
      -- equal top values
      have hmaxS : ∀ e ∈ (p1, u1) :: (p2, u2) :: r, e.2 ≤ u1 := sorted_head_ge hsortedS
      have hmaxS' : ∀ e ∈ (q1, v1) :: (q2, v2) :: r', e.2 ≤ v1 := sorted_head_ge hsortedS'
      have htop : u1 = v1 := by
        have h1 : v1 ≤ u1 := hmaxS _ (hpermSS.symm.subset (List.mem_cons_self _ _))
        have h2 : u1 ≤ v1 := hmaxS' _ (hpermSS.subset (List.mem_cons_self _ _))
        omega
      have hu21 : u2 ≤ u1 := hmaxS _ (List.mem_cons_of_mem _ (List.mem_cons_self _ _))
      have hv21 : v2 ≤ v1 := hmaxS' _ (List.mem_cons_of_mem _ (List.mem_cons_self _ _))
      have htailS : ∀ e ∈ (p2, u2) :: r, e.2 ≤ u2 :=
        sorted_head_ge (List.pairwise_cons.mp hsortedS).2
      have htailS' : ∀ e ∈ (q2, v2) :: r', e.2 ≤ v2 :=
        sorted_head_ge (List.pairwise_cons.mp hsortedS').2
      have e1 : resolveSquareCombat (a :: b :: f2) =
          if u1 - u2 > 0 then (u1 - u2, p1) else (0, '.') := by
        simp only [resolveSquareCombat, hseq]
      have e2 : resolveSquareCombat (a' :: b' :: t') =
          if v1 - v2 > 0 then (v1 - v2, q1) else (0, '.') := by
        simp only [resolveSquareCombat, hseq']
      by_cases hcase : u2 < u1
      · -- unique maximum: heads agree, second values agree
        have hfilS : ((p1, u1) :: (p2, u2) :: r).filter (fun e => e.2 = u1) = [(p1, u1)] := by
          rw [List.filter_cons_of_pos (by simp), List.filter_eq_nil_iff.mpr]
          intro e he
          have := htailS e he
          simp only [decide_eq_true_eq]
          omega
        have hfilS' : ((q1, v1) :: (q2, v2) :: r').filter (fun e => e.2 = u1) = [(p1, u1)] := by
          have hp := (hpermSS.filter (fun e => decide (e.2 = u1))).symm
          rw [hfilS] at hp
          exact List.perm_singleton.mp hp
        have hhead' : (q1, v1) = (p1, u1) := by
          have hmem : (q1, v1) ∈ ((q1, v1) :: (q2, v2) :: r').filter (fun e => e.2 = u1) :=
            List.mem_filter.mpr ⟨List.mem_cons_self _ _, by simp [htop]⟩
          rw [hfilS'] at hmem
          exact List.mem_singleton.mp hmem
        obtain ⟨hq1, hv1⟩ := Prod.mk.injEq .. ▸ hhead'
        have htails : List.Perm ((p2, u2) :: r) ((q2, v2) :: r') := by
          have := hpermSS
          rw [hhead'] at this
          exact this.cons_inv
        have hsec : u2 = v2 := by
          have h1 : v2 ≤ u2 := htailS _ (htails.symm.subset (List.mem_cons_self _ _))
          have h2 : u2 ≤ v2 := htailS' _ (htails.subset (List.mem_cons_self _ _))
          omega
        rw [e1, e2, if_pos (by omega), if_pos (by omega), htop, hsec, hq1]
      · have htie : u1 = u2 := by omega
        have htie' : v1 = v2 := by
          by_contra hne
          have hvlt : v2 < v1 := by omega
          have hfilS : 2 ≤ (((p1, u1) :: (p2, u2) :: r).filter
              (fun e => e.2 = u1)).length := by
            rw [List.filter_cons_of_pos (by simp),
              List.filter_cons_of_pos (by simp [htie])]
            simp
          have hfilS' : (((q1, v1) :: (q2, v2) :: r').filter
              (fun e => e.2 = u1)) = [(q1, v1)] := by
            rw [List.filter_cons_of_pos (by simp [htop]), List.filter_eq_nil_iff.mpr]
            intro e he
            have := htailS' e he
            simp only [decide_eq_true_eq]
            omega
          have hlen1 : (((p1, u1) :: (p2, u2) :: r).filter (fun e => e.2 = u1)).length = 1 := by
            have hl := (hpermSS.filter (fun e => decide (e.2 = u1))).length_eq
            rw [hfilS'] at hl
            simpa using hl
          omega
        rw [e1, e2, if_neg (by omega), if_neg (by omega)]

theorem forcesAt_perm (g : Grid) {l l' : List Movement} (h : List.Perm l l') (x y : Nat) :
    List.Perm (forcesAt g l x y) (forcesAt g l' x y) := by
  unfold forcesAt
  have hrw : ∀ (ms : List Movement) (init : List (Char × Int)),
      ms.foldl (fun f m => upsertAdd f m.playerId m.units) init =
        (ms.map fun m => (m.playerId, m.units)).foldl
          (fun acc e => upsertAdd acc e.1 e.2) init := by
    intro ms init
    rw [List.foldl_map]
  rw [hrw, hrw]
  apply foldl_upsertAdd_perm ((h.filter _).map _)
  by_cases hp : (sq g x y).playerId = '.'
  · simp [hp]
  · simp [hp]

/-! ## C8 — combat resolution is movement-order independent -/

/-- **C8.** For every post-debit grid and every list of movements,
applying the combat resolver to any permutation of that movement list
yields an identical combat-resolved board (including the off-board
crash case, which permuting cannot mask). -/
theorem resolveCombat_perm (g : Grid) (l l' : List Movement) (h : List.Perm l l') :
    resolveCombat g l = resolveCombat g l' := by
  unfold resolveCombat
  by_cases hb : ∀ m ∈ l, toInBounds g.length m
  · have hb' : ∀ m ∈ l', toInBounds g.length m := fun m hm => hb m (h.mem_iff.mpr hm)
    rw [if_pos hb, if_pos hb']
    have : mkGrid g.length (combatSquare g l) = mkGrid g.length (combatSquare g l') := by
      unfold mkGrid
      apply List.map_congr_left
      intro x _
      apply List.map_congr_left
      intro y _
      unfold combatSquare
      rw [resolveSquareCombat_perm (forcesAt_perm g h x y)]
    rw [this]
  · have hb' : ¬ ∀ m ∈ l', toInBounds g.length m :=
      fun hh => hb fun m hm => hh m (h.mem_iff.mp hm)
    rw [if_neg hb, if_neg hb']

/-- Witness for C8: two movements into the same square, in both orders,
resolve to the same board. -/
theorem resolveCombat_perm_witness :
    resolveCombat [[⟨3, 'a', false⟩]] [⟨⟨0, 0⟩, ⟨0, 0⟩, 'b', 2⟩, ⟨⟨0, 0⟩, ⟨0, 0⟩, 'c', 1⟩] =
      resolveCombat [[⟨3, 'a', false⟩]] [⟨⟨0, 0⟩, ⟨0, 0⟩, 'c', 1⟩, ⟨⟨0, 0⟩, ⟨0, 0⟩, 'b', 2⟩] :=
  resolveCombat_perm _ _ _ (by decide)

/-! ## Non-negativity through the pipeline -/

theorem upsertAdd_values_nonneg {κ : Type} [DecidableEq κ] {l : List (κ × Int)} {k : κ}
    {u : Int} (hl : ∀ e ∈ l, 0 ≤ e.2) (hu : 0 ≤ u) :
    ∀ e ∈ upsertAdd l k u, 0 ≤ e.2 := by
  induction l with
  | nil =>
    intro e he
    simp only [upsertAdd, List.mem_singleton] at he
    subst he
    exact hu
  | cons a rest ih =>
    obtain ⟨q, v⟩ := a
    intro e he
    by_cases hqk : q = k
    · subst hqk
      simp only [upsertAdd, if_pos rfl] at he
      rcases List.mem_cons.mp he with rfl | hm
      · have := hl (q, v) (List.mem_cons_self _ _)
        simp only at this ⊢
        omega
      · exact hl e (List.mem_cons_of_mem _ hm)
    · simp only [upsertAdd, if_neg hqk] at he
      rcases List.mem_cons.mp he with rfl | hm
      · exact hl _ (List.mem_cons_self _ _)
      · exact ih (fun x hx => hl x (List.mem_cons_of_mem _ hx)) e hm

theorem foldl_upsertAdd_values_nonneg {κ : Type} [DecidableEq κ] (ms : List (κ × Int))
    (init : List (κ × Int)) (hinit : ∀ e ∈ init, 0 ≤ e.2) (hms : ∀ e ∈ ms, 0 ≤ e.2) :
    ∀ e ∈ ms.foldl (fun acc e => upsertAdd acc e.1 e.2) init, 0 ≤ e.2 := by
  induction ms generalizing init with
  | nil => exact hinit
  | cons m rest ih =>
    simp only [List.foldl_cons]
    exact ih _ (upsertAdd_values_nonneg hinit (hms m (List.mem_cons_self _ _)))
      (fun e he => hms e (List.mem_cons_of_mem _ he))

theorem resolveSquareCombat_nonneg {forces : List (Char × Int)}
    (h : ∀ e ∈ forces, 0 ≤ e.2) : 0 ≤ (resolveSquareCombat forces).1 := by
  cases hf : forces with
  | nil => simp [resolveSquareCombat]
  | cons a f1 =>
    cases f1 with
    | nil =>
      obtain ⟨p, u⟩ := a
      have := h (p, u) (by rw [hf]; exact List.mem_cons_self _ _)
      simpa [resolveSquareCombat] using this
    | cons b f2 =>
      have hs : 2 ≤ (sortForcesDesc (a :: b :: f2)).length := by
        rw [(sortForcesDesc_perm _).length_eq]
        simp
      obtain ⟨⟨p1, u1⟩, ⟨p2, u2⟩, r, hseq⟩ := exists_cons_cons_of_two_le hs
      have : resolveSquareCombat (a :: b :: f2) =
          if u1 - u2 > 0 then (u1 - u2, p1) else (0, '.') := by
        simp only [resolveSquareCombat, hseq]
      rw [this]
      by_cases hgt : u1 - u2 > 0
      · rw [if_pos hgt]
        simp only
        omega
      · rw [if_neg hgt]

theorem getSquare_eq_sq {g : Grid} (hwf : wellFormed g) {x y : Nat}
    (hx : x < g.length) (hy : y < g.length) :
    getSquare g ⟨(x : Int), (y : Int)⟩ = some (sq g x y) := by
  unfold getSquare
  have hcol : (g.getD x []).length = g.length := by
    apply hwf
    rw [List.getD_eq_getElem?_getD, List.getElem?_eq_getElem hx]
    exact List.getElem_mem _
  rw [if_pos]
  · simp [sq]
  · refine ⟨by positivity, by simpa using hx, by positivity, ?_⟩
    simp only [Int.toNat_ofNat, hcol]
    simpa using hy

/-! ## C7 — validated resolution preserves non-negativity -/

/-- **C7.** For every board (square grid, non-negative units) and
orders passing validation — positive unit counts, on-board sources and
targets, and per-source cumulative totals within the available units —
the full pipeline (source debit, then combat, then production with
non-negative production values) yields a board with `units ≥ 0`
everywhere, and the source-debit subtraction itself never goes
negative. -/
theorem resolution_preserves_nonneg (g : Grid) (moves : List Movement) (config : GameConfig)
    (hwf : wellFormed g)
    (hunits : ∀ x y, x < g.length → y < g.length → 0 ≤ (sq g x y).units)
    (hpos : ∀ m ∈ moves, 0 < m.units)
    (hfrom : ∀ m ∈ moves, fromInBounds g.length m)
    (hto : ∀ m ∈ moves, toInBounds g.length m)
    (havail : ∀ c : Coordinate, (∃ m ∈ moves, m.fromCoord = c) →
        ∃ s, getSquare g c = some s ∧ sumLeavingAt moves c ≤ s.units)
    (hbp : 0 ≤ config.BASE_PRODUCTION) (hrp : 0 ≤ config.RESOURCE_PRODUCTION) :
    ∃ g1 g2, applyMovementsFromSources g moves = some g1
      ∧ resolveCombat g1 moves = some g2
      ∧ (∀ x y, x < g.length → y < g.length →
          0 ≤ (sq (applyProduction g2 config) x y).units)
      ∧ (∀ x y, x < g.length → y < g.length →
          0 ≤ (sq g x y).units - sumLeavingAt moves ⟨(x : Int), (y : Int)⟩) := by
  have hdebit : ∀ x y, x < g.length → y < g.length →
      0 ≤ (sq g x y).units - sumLeavingAt moves ⟨(x : Int), (y : Int)⟩ := by
    intro x y hx hy
    by_cases hex : ∃ m ∈ moves, m.fromCoord = (⟨(x : Int), (y : Int)⟩ : Coordinate)
    · obtain ⟨s, hgs, hle⟩ := havail _ hex
      rw [getSquare_eq_sq hwf hx hy] at hgs
      have : s = sq g x y := by injection hgs.symm
      rw [this] at hle
      omega
    · rw [sumLeavingAt_eq_zero hex]
      have := hunits x y hx hy
      omega
  unfold applyMovementsFromSources
  rw [if_pos hfrom]
  have hlen1 : (mkGrid g.length (debitSquare g moves)).length = g.length := length_mkGrid _ _
  have hg1units : ∀ x y, x < g.length → y < g.length →
      0 ≤ (sq (mkGrid g.length (debitSquare g moves)) x y).units := by
    intro x y hx hy
    rw [sq_mkGrid _ _ hx hy]
    unfold debitSquare
    rw [lookupKey_unitsLeaving]
    by_cases hex : ∃ m ∈ moves, m.fromCoord = (⟨(x : Int), (y : Int)⟩ : Coordinate)
    · rw [if_pos hex]
      exact le_max_left 0 _
    · rw [if_neg hex]
      exact hunits x y hx hy
  refine ⟨mkGrid g.length (debitSquare g moves),
    mkGrid (mkGrid g.length (debitSquare g moves)).length
      (combatSquare (mkGrid g.length (debitSquare g moves)) moves),
    rfl, ?_, ?_, hdebit⟩
  · unfold resolveCombat
    rw [hlen1, if_pos hto]
  · intro x y hx hy
    unfold applyProduction
    have hlen2 : (mkGrid (mkGrid g.length (debitSquare g moves)).length
        (combatSquare (mkGrid g.length (debitSquare g moves)) moves)).length = g.length := by
      rw [length_mkGrid, hlen1]
    rw [sq_mkGrid _ _ (by rw [hlen2]; exact hx) (by rw [hlen2]; exact hy)]
    unfold produceSquare
    have hg2 : 0 ≤ (sq (mkGrid (mkGrid g.length (debitSquare g moves)).length
        (combatSquare (mkGrid g.length (debitSquare g moves)) moves)) x y).units := by
      rw [hlen1, sq_mkGrid _ _ hx hy]
      unfold combatSquare
      apply resolveSquareCombat_nonneg
      unfold forcesAt
      have hrw : ∀ (ms : List Movement) (init : List (Char × Int)),
          ms.foldl (fun f m => upsertAdd f m.playerId m.units) init =
            (ms.map fun m => (m.playerId, m.units)).foldl
              (fun acc e => upsertAdd acc e.1 e.2) init := by
        intro ms init
        rw [List.foldl_map]
      rw [hrw]
      refine foldl_upsertAdd_values_nonneg _ _ ?_ ?_
      · by_cases hp : (sq (mkGrid g.length (debitSquare g moves)) x y).playerId = '.'
        · simp [hp]
        · intro e' he'
          rw [if_neg hp] at he'
          rw [List.mem_singleton] at he'
          subst he'
          exact hg1units x y hx hy
      · intro e he
        obtain ⟨m, hm, rfl⟩ := List.mem_map.mp he
        have := hpos m (List.mem_filter.mp hm).1
        simp only
        omega
    by_cases hprod : (sq (mkGrid (mkGrid g.length (debitSquare g moves)).length
        (combatSquare (mkGrid g.length (debitSquare g moves)) moves)) x y).playerId ≠ '.' ∧
        (sq (mkGrid (mkGrid g.length (debitSquare g moves)).length
          (combatSquare (mkGrid g.length (debitSquare g moves)) moves)) x y).units <
          config.PRODUCTION_CAP
    · rw [if_pos hprod]
      simp only
      by_cases hres : (sq (mkGrid (mkGrid g.length (debitSquare g moves)).length
          (combatSquare (mkGrid g.length (debitSquare g moves)) moves)) x y).isResource
      · rw [if_pos hres]
        have := hprod.2
        omega
      · rw [if_neg hres]
        have := hprod.2
        omega
    · rw [if_neg hprod]
      exact hg2

/-- Witness for C7: one validated order (3 of 7 units moved right)
keeps all unit counts non-negative through the pipeline. -/
theorem resolution_preserves_nonneg_witness :
    ∃ g1 g2,
      applyMovementsFromSources [[⟨7, 'a', false⟩, ⟨0, '.', false⟩],
          [⟨0, '.', false⟩, ⟨0, '.', false⟩]] [⟨⟨0, 0⟩, ⟨1, 0⟩, 'a', 3⟩] = some g1
      ∧ resolveCombat g1 [⟨⟨0, 0⟩, ⟨1, 0⟩, 'a', 3⟩] = some g2
      ∧ ∀ x y, x < 2 → y < 2 → 0 ≤ (sq (applyProduction g2 ⟨15, 1, 2, 21⟩) x y).units := by
  obtain ⟨g1, g2, h1, h2, h3, -⟩ := resolution_preserves_nonneg
    [[⟨7, 'a', false⟩, ⟨0, '.', false⟩], [⟨0, '.', false⟩, ⟨0, '.', false⟩]]
    [⟨⟨0, 0⟩, ⟨1, 0⟩, 'a', 3⟩] ⟨15, 1, 2, 21⟩
    (by unfold wellFormed; decide)
    (by
      intro x y hx hy
      match x, y, hx, hy with
      | 0, 0, _, _ => decide
      | 0, 1, _, _ => decide
      | 1, 0, _, _ => decide
      | 1, 1, _, _ => decide)
    (by intro m hm; rw [List.mem_singleton] at hm; subst hm; decide)
    (by intro m hm; rw [List.mem_singleton] at hm; subst hm; decide)
    (by intro m hm; rw [List.mem_singleton] at hm; subst hm; decide)
    (by
      rintro c ⟨m, hm, rfl⟩
      rw [List.mem_singleton] at hm
      subst hm
      exact ⟨⟨7, 'a', false⟩, by decide, by decide⟩)
    (by decide) (by decide)
  exact ⟨g1, g2, h1, h2, h3⟩

/-! ## C9 — round driver appends or freezes -/

/-- **C9.** For a game state whose current (last) round has stored
orders, resolving the round either (non-terminal verdict) appends
exactly one new round whose stored board is the serialized
post-production board, with empty declarations and orders and a round
number one greater, leaving the existing records (hence the current
round's stored board) unchanged; or (terminal verdict) records the
verdict and appends no round — and a state with a recorded verdict is
rejected by the driver's gate, so no further rounds are ever appended. -/
theorem resolveRound_spec (gs : GameState) (cur : RoundRecord) (grid g1 g2 : Grid)
    (hcur : gs.rounds.getLast? = some cur)
    (_horders : cur.commands ≠ [])
    (hparse : parseGrid cur.gridState = .ok grid)
    (hmoves : applyMovementsFromSources grid (commandsToMovements cur.commands) = some g1)
    (hcombat : resolveCombat g1 (commandsToMovements cur.commands) = some g2) :
    (checkEndConditions
        (calculatePlayerUnits (applyProduction g2 gs.config) gs.numPlayers)
        cur.roundNumber gs.config.MAX_ROUNDS = none →
      resolveRound gs = some { gs with
        rounds := gs.rounds ++ [⟨cur.roundNumber + 1, [], [],
          serializeGrid (applyProduction g2 gs.config)⟩]
        currentRound := cur.roundNumber + 1 })
    ∧ (∀ w, checkEndConditions
        (calculatePlayerUnits (applyProduction g2 gs.config) gs.numPlayers)
        cur.roundNumber gs.config.MAX_ROUNDS = some w →
      resolveRound gs = some { gs with winner := some w, rounds := gs.rounds })
    ∧ (∀ gs2 : GameState, ∀ w, gs2.winner = some w →
        ∃ e, nextCommandGate gs2 = .error e) := by
  refine ⟨?_, ?_, ?_⟩
  · intro hv
    simp only [resolveRound, hcur, hparse, hmoves, hcombat, hv]
  · intro w hv
    simp only [resolveRound, hcur, hparse, hmoves, hcombat, hv]
  · intro gs2 w hw
    unfold nextCommandGate
    rw [hw, if_pos (by simp)]
    exact ⟨_, rfl⟩

/-- Witness for C9: a one-player, one-round game whose resolution ends
by domination, freezing the state with the verdict recorded and no
round appended. -/
theorem resolveRound_spec_witness :
    resolveRound ⟨['g'], ⟨15, 1, 2, 21⟩, 1, 1,
        [⟨1, [], [[]], ['0', '0', '5', 'a', '.']⟩], none⟩ =
      some ⟨['g'], ⟨15, 1, 2, 21⟩, 1, 1,
        [⟨1, [], [[]], ['0', '0', '5', 'a', '.']⟩], some (.winner 'a')⟩ := by
  have h := (resolveRound_spec
    ⟨['g'], ⟨15, 1, 2, 21⟩, 1, 1, [⟨1, [], [[]], ['0', '0', '5', 'a', '.']⟩], none⟩
    ⟨1, [], [[]], ['0', '0', '5', 'a', '.']⟩
    [[⟨5, 'a', false⟩]] [[⟨5, 'a', false⟩]] [[⟨5, 'a', false⟩]]
    (by rfl) (by decide) (by rfl) (by rfl) (by rfl)).2.1 (.winner 'a') (by rfl)
  exact h

/-! ## Lemmas for the order validator -/

theorem lookupKey_upsertSet {κ : Type} [DecidableEq κ] (l : List (κ × Int)) (k k' : κ)
    (u : Int) :
    lookupKey (upsertSet l k u) k' = if k' = k then some u else lookupKey l k' := by
  induction l with
  | nil =>
    simp only [upsertSet, lookupKey]
    by_cases h : k' = k
    · subst h
      simp
    · rw [if_neg (fun hh => h hh.symm), if_neg h]
  | cons e rest ih =>
    obtain ⟨q, v⟩ := e
    by_cases hqk : q = k
    · subst hqk
      simp only [upsertSet, if_pos rfl]
      by_cases h : k' = q
      · subst h
        simp [lookupKey]
      · simp only [lookupKey, if_neg (fun hh : q = k' => h hh.symm), if_neg h]
    · simp only [upsertSet, if_neg hqk]
      by_cases h : q = k'
      · subst h
        rw [if_neg (fun hh : q = k => hqk hh)]
        simp [lookupKey]
      · simp only [lookupKey, if_neg h]
        rw [ih]

theorem sumFrom_eq_zero {acc : List Command} {c : Coordinate}
    (h : ¬ ∃ k ∈ acc, k.fromCoord = c) : sumFrom acc c = 0 := by
  unfold sumFrom
  have : acc.filter (fun k => k.fromCoord = c) = [] := by
    rw [List.filter_eq_nil_iff]
    intro k hk
    simp only [decide_eq_true_eq]
    exact fun hh => h ⟨k, hk, hh⟩
  simp [this]

theorem sumFrom_append_single (acc : List Command) (k : Command) (c : Coordinate) :
    sumFrom (acc ++ [k]) c =
      sumFrom acc c + if k.fromCoord = c then k.unitCount else 0 := by
  unfold sumFrom
  rw [List.filter_append]
  by_cases h : k.fromCoord = c
  · rw [List.filter_cons_of_pos (by simp [h])]
    simp [h]
  · rw [List.filter_cons_of_neg (by simp [h])]
    simp [h]

theorem validateCommand_none_getSquare {cmd : Command} {playerId : Char} {grid : Grid}
    {mapSize : Int} (h : validateCommand cmd playerId grid mapSize = none) :
    ∃ s, getSquare grid cmd.fromCoord = some s := by
  unfold validateCommand at h
  split at h
  · exact absurd h (by simp)
  · split at h
    · exact absurd h (by simp)
    · next s heq => exact ⟨s, heq⟩

theorem processTokens_sound (playerId : Char) (grid : Grid) (mapSize : Int)
    (toks : List (List Char)) :
    ∀ (used : List (Coordinate × Int)) (acc cmds : List Command),
    (∀ c, lookupKey used c =
        if ∃ k ∈ acc, k.fromCoord = c then some (sumFrom acc c) else none) →
    (∀ c s v, getSquare grid c = some s → lookupKey used c = some v → v ≤ s.units) →
    processTokens playerId grid mapSize toks used acc = .ok cmds →
    ∀ c s, getSquare grid c = some s → (∃ k ∈ cmds, k.fromCoord = c) →
      sumFrom cmds c ≤ s.units := by
  induction toks with
  | nil =>
    intro used acc cmds hlink hbound hok c s hgs hex
    have hacc : cmds = acc := by
      simp only [processTokens] at hok
      injection hok with h
      exact h.symm
    subst hacc
    have := hlink c
    rw [if_pos hex] at this
    exact hbound c s _ hgs this
  | cons tok rest ih =>
    intro used acc cmds hlink hbound hok c s hgs hex
    simp only [processTokens] at hok
    split at hok
    · simp at hok
    · rename_i cmd hp
      split at hok
      · simp at hok
      · rename_i hv
        split at hok
        · rename_i sourceSquare hs0
          split at hok
          · simp at hok
          · rename_i hover
            refine ih _ _ _ ?_ ?_ hok c s hgs hex
            · intro c'
              rw [lookupKey_upsertSet]
              by_cases hc : c' = cmd.fromCoord
              · subst hc
                rw [if_pos rfl]
                have hx : ∃ k ∈ acc ++ [cmd], k.fromCoord = cmd.fromCoord :=
                  ⟨cmd, by simp, rfl⟩
                rw [if_pos hx, sumFrom_append_single]
                rw [if_pos rfl]
                have hlc := hlink cmd.fromCoord
                by_cases hacc : ∃ k ∈ acc, k.fromCoord = cmd.fromCoord
                · rw [if_pos hacc] at hlc
                  rw [hlc]
                  rfl
                · rw [if_neg hacc] at hlc
                  rw [hlc, sumFrom_eq_zero hacc]
                  rfl
              · rw [if_neg hc, hlink c']
                have hiff : (∃ k ∈ acc ++ [cmd], k.fromCoord = c') ↔
                    ∃ k ∈ acc, k.fromCoord = c' := by
                  constructor
                  · rintro ⟨k, hk, rfl⟩
                    rcases List.mem_append.mp hk with hk1 | hk2
                    · exact ⟨k, hk1, rfl⟩
                    · rw [List.mem_singleton] at hk2
                      subst hk2
                      exact absurd rfl hc
                  · rintro ⟨k, hk, hkc⟩
                    exact ⟨k, List.mem_append_left _ hk, hkc⟩
                by_cases hacc : ∃ k ∈ acc, k.fromCoord = c'
                · rw [if_pos hacc, if_pos (hiff.mpr hacc), sumFrom_append_single,
                    if_neg (fun hh => hc hh.symm), add_zero]
                · rw [if_neg hacc, if_neg (fun hh => hacc (hiff.mp hh))]
            · intro c' s' v' hgs' hlk
              rw [lookupKey_upsertSet] at hlk
              by_cases hc : c' = cmd.fromCoord
              · rw [if_pos hc] at hlk
                injection hlk with hlk
                subst hc
                have hss : s' = sourceSquare := by
                  rw [hgs'] at hs0
                  injection hs0
                subst hss
                omega
              · rw [if_neg hc] at hlk
                exact hbound c' s' v' hgs' hlk
        · rename_i hs0
          obtain ⟨s0, h0⟩ := validateCommand_none_getSquare hv
          rw [h0] at hs0
          simp at hs0

theorem processTokens_cumulative_error (playerId : Char) (grid : Grid) (mapSize : Int)
    (toks : List (List Char)) :
    ∀ (used : List (Coordinate × Int)) (acc : List Command) (e : List Char),
    (∀ tok ∈ toks, ∃ cmd, parseCommand tok = .ok cmd ∧
        validateCommand cmd playerId grid mapSize = none) →
    processTokens playerId grid mapSize toks used acc = .error e →
    ∃ c s t, getSquare grid c = some s ∧ s.units < t ∧
      e = cumulativeErrorMsg playerId c t s.units := by
  induction toks with
  | nil =>
    intro used acc e _ herr
    simp [processTokens] at herr
  | cons tok rest ih =>
    intro used acc e hstruct herr
    obtain ⟨cmd0, hp0, hv0⟩ := hstruct tok (List.mem_cons_self _ _)
    simp only [processTokens] at herr
    split at herr
    · rename_i e' hpe
      rw [hp0] at hpe
      simp at hpe
    · rename_i cmd hp
      have hcmd : cmd = cmd0 := by
        rw [hp] at hp0
        injection hp0
      subst hcmd
      split at herr
      · rename_i e' hve
        rw [hv0] at hve
        simp at hve
      · rename_i hv
        split at herr
        · rename_i sourceSquare hs0
          split at herr
          · rename_i hover
            refine ⟨cmd.fromCoord, sourceSquare,
              (lookupKey used cmd.fromCoord).getD 0 + cmd.unitCount, hs0, by omega, ?_⟩
            injection herr with h
            exact h.symm
          · exact ih _ _ _ (fun t ht => hstruct t (List.mem_cons_of_mem _ ht)) herr
        · rename_i hs0
          obtain ⟨s0, h0⟩ := validateCommand_none_getSquare hv
          rw [h0] at hs0
          simp at hs0

/-! ## C4 — cumulative-availability validation -/

/-- **C4.** The validator tracks the running per-source-coordinate sum
of units across one player's orders in declaration order: a line that
validates never commits more units from a coordinate than the pre-order
board holds there, and when the running total from some coordinate
exceeds the available units (with every token individually well-formed
and valid, within the order-count bound), the whole line fails with the
insufficient-units message naming the coordinate and the attempted
total. -/
theorem order_validator_cumulative (line : List Char) (playerId : Char) (grid : Grid)
    (mapSize maxCommands : Int) :
    (∀ cmds, parsePlayerCommands line playerId grid mapSize maxCommands = .ok cmds →
      ∀ c s, getSquare grid c = some s → (∃ k ∈ cmds, k.fromCoord = c) →
        sumFrom cmds c ≤ s.units)
    ∧ (((splitOnChar '|' line).length : Int) ≤ maxCommands →
       (∀ tok ∈ splitOnChar '|' line, ∃ cmd, parseCommand tok = .ok cmd ∧
          validateCommand cmd playerId grid mapSize = none) →
       ∀ e, parsePlayerCommands line playerId grid mapSize maxCommands = .error e →
        ∃ c s t, getSquare grid c = some s ∧ s.units < t ∧
          e = cumulativeErrorMsg playerId c t s.units) := by
  constructor
  · intro cmds hok c s hgs hex
    unfold parsePlayerCommands at hok
    by_cases htr : trimChars line = []
    · rw [if_pos htr] at hok
      injection hok with h
      rw [← h] at hex
      obtain ⟨k, hk, -⟩ := hex
      simp at hk
    · rw [if_neg htr] at hok
      by_cases hlen : ((splitOnChar '|' line).length : Int) > maxCommands
      · rw [if_pos hlen] at hok
        simp at hok
      · rw [if_neg hlen] at hok
        refine processTokens_sound playerId grid mapSize _ [] [] cmds ?_ ?_ hok c s hgs hex
        · intro c0
          simp [lookupKey]
        · intro c0 s0 v0 _ hlk
          simp [lookupKey] at hlk
  · intro hlen hstruct e herr
    unfold parsePlayerCommands at herr
    by_cases htr : trimChars line = []
    · rw [if_pos htr] at herr
      simp at herr
    · rw [if_neg htr] at herr
      rw [if_neg (by omega)] at herr
      exact processTokens_cumulative_error playerId grid mapSize _ [] [] e hstruct herr

/-- Witness for C4: `a` owns 10 units at `(1,1)` of a 3×3 board and
submits `1,1,R,7|1,1,U,6`; each order is individually valid but the
running total 13 exceeds 10, so the line fails with the
insufficient-units message naming `(1,1)` and 13. -/
theorem order_validator_cumulative_witness :
    ∃ c s t,
      getSquare [[⟨0, '.', false⟩, ⟨0, '.', false⟩, ⟨0, '.', false⟩],
        [⟨0, '.', false⟩, ⟨10, 'a', false⟩, ⟨0, '.', false⟩],
        [⟨0, '.', false⟩, ⟨0, '.', false⟩, ⟨0, '.', false⟩]] c = some s ∧ s.units < t ∧
      cumulativeErrorMsg 'a' ⟨1, 1⟩ 13 10 = cumulativeErrorMsg 'a' c t s.units := by
  have h := (order_validator_cumulative (strL ("1,1,R,7|1,1,U,6")) 'a'
    [[⟨0, '.', false⟩, ⟨0, '.', false⟩, ⟨0, '.', false⟩],
      [⟨0, '.', false⟩, ⟨10, 'a', false⟩, ⟨0, '.', false⟩],
      [⟨0, '.', false⟩, ⟨0, '.', false⟩, ⟨0, '.', false⟩]] 3 3).2
    (by decide)
    (by
      intro tok htok
      have hsplit : splitOnChar '|' (strL ("1,1,R,7|1,1,U,6")) =
          [strL ("1,1,R,7"), strL ("1,1,U,6")] := by rfl
      rw [hsplit] at htok
      rcases List.mem_cons.mp htok with rfl | htok2
      · exact ⟨⟨⟨1, 1⟩, .R, 7⟩, by rfl, by rfl⟩
      · rcases List.mem_cons.mp htok2 with rfl | h3
        · exact ⟨⟨⟨1, 1⟩, .U, 6⟩, by rfl, by rfl⟩
        · simp at h3)
    (cumulativeErrorMsg 'a' ⟨1, 1⟩ 13 10) (by rfl)
  exact h

/-! ## Split/join lemmas -/

theorem splitOnChar_ne_nil (sep : Char) (s : List Char) : splitOnChar sep s ≠ [] := by
  cases s with
  | nil => simp [splitOnChar]
  | cons c rest =>
    simp only [splitOnChar]
    by_cases h : c = sep
    · simp [h]
    · rw [if_neg h]
      cases hs : splitOnChar sep rest with
      | nil => simp
      | cons h t => simp

theorem joinWith_splitOnChar (sep : Char) (s : List Char) :
    joinWith sep (splitOnChar sep s) = s := by
  induction s with
  | nil => rfl
  | cons c rest ih =>
    simp only [splitOnChar]
    by_cases h : c = sep
    · rw [if_pos h]
      subst h
      cases hs : splitOnChar c rest with
      | nil => exact absurd hs (splitOnChar_ne_nil c rest)
      | cons p ps =>
        rw [hs] at ih
        show joinWith c ([] :: p :: ps) = c :: rest
        simp only [joinWith]
        rw [List.nil_append, ih]
    · rw [if_neg h]
      cases hs : splitOnChar sep rest with
      | nil => exact absurd hs (splitOnChar_ne_nil sep rest)
      | cons p ps =>
        rw [hs] at ih
        cases ps with
        | nil =>
          show joinWith sep [c :: p] = c :: rest
          simp only [joinWith] at ih ⊢
          rw [ih]
        | cons q qs =>
          show joinWith sep ((c :: p) :: q :: qs) = c :: rest
          simp only [joinWith] at ih ⊢
          rw [List.cons_append, ih]

theorem splitOnChar_no_sep {sep : Char} {p : List Char} (h : sep ∉ p) :
    splitOnChar sep p = [p] := by
  induction p with
  | nil => rfl
  | cons c rest ih =>
    simp only [List.mem_cons] at h
    push_neg at h
    simp only [splitOnChar, if_neg (fun hh : c = sep => h.1 hh.symm)]
    rw [ih h.2]

theorem splitOnChar_append_sep {sep : Char} {p : List Char} (r : List Char) (h : sep ∉ p) :
    splitOnChar sep (p ++ sep :: r) = p :: splitOnChar sep r := by
  induction p with
  | nil => simp [splitOnChar]
  | cons c rest ih =>
    simp only [List.mem_cons] at h
    push_neg at h
    simp only [List.cons_append, splitOnChar, if_neg (fun hh : c = sep => h.1 hh.symm)]
    rw [List.append_eq, ih h.2]

theorem splitOnChar_joinWith {sep : Char} {ps : List (List Char)} (hne : ps ≠ [])
    (hsep : ∀ p ∈ ps, sep ∉ p) : splitOnChar sep (joinWith sep ps) = ps := by
  induction ps with
  | nil => exact absurd rfl hne
  | cons p rest ih =>
    cases rest with
    | nil =>
      show splitOnChar sep p = [p]
      exact splitOnChar_no_sep (hsep p (List.mem_cons_self _ _))
    | cons q qs =>
      show splitOnChar sep (p ++ sep :: joinWith sep (q :: qs)) = p :: q :: qs
      rw [splitOnChar_append_sep _ (hsep p (List.mem_cons_self _ _)),
        ih (by simp) (fun x hx => hsep x (List.mem_cons_of_mem _ hx))]

theorem mem_joinWith {sep c : Char} {p : List Char} {ps : List (List Char)}
    (hp : p ∈ ps) (hc : c ∈ p) : c ∈ joinWith sep ps := by
  induction ps with
  | nil => simp at hp
  | cons q rest ih =>
    rcases List.mem_cons.mp hp with rfl | hm
    · cases rest with
      | nil => exact hc
      | cons r rs =>
        show c ∈ p ++ sep :: joinWith sep (r :: rs)
        exact List.mem_append_left _ hc
    · cases rest with
      | nil => simp at hm
      | cons r rs =>
        show c ∈ q ++ sep :: joinWith sep (r :: rs)
        refine List.mem_append_right _ ?_
        exact List.mem_cons_of_mem _ (ih hm)

theorem mem_of_mem_joinWith {sep c : Char} {ps : List (List Char)}
    (h : c ∈ joinWith sep ps) : c = sep ∨ ∃ p ∈ ps, c ∈ p := by
  induction ps with
  | nil => simp [joinWith] at h
  | cons q rest ih =>
    cases rest with
    | nil =>
      exact Or.inr ⟨q, List.mem_cons_self _ _, h⟩
    | cons r rs =>
      rw [show joinWith sep (q :: r :: rs) = q ++ sep :: joinWith sep (r :: rs) from rfl] at h
      rcases List.mem_append.mp h with h1 | h2
      · exact Or.inr ⟨q, List.mem_cons_self _ _, h1⟩
      · rcases List.mem_cons.mp h2 with rfl | h3
        · exact Or.inl rfl
        · rcases ih h3 with h4 | ⟨p, hp, hcp⟩
          · exact Or.inl h4
          · exact Or.inr ⟨p, List.mem_cons_of_mem _ hp, hcp⟩

theorem range_map_getD {α : Type} (l : List α) (d : α) :
    (List.range l.length).map (fun i => l.getD i d) = l := by
  induction l with
  | nil => rfl
  | cons a rest ih =>
    simp only [List.length_cons, List.range_succ_eq_map, List.map_cons, List.getD_cons_zero,
      List.map_map]
    congr 1

theorem getD_map_lt {α β : Type} (f : α → β) {l : List α} {i : Nat} (hi : i < l.length)
    (d : β) (d' : α) : (l.map f).getD i d = f (l.getD i d') := by
  rw [List.getD_eq_getElem?_getD, List.getElem?_map, List.getD_eq_getElem?_getD,
    List.getElem?_eq_getElem hi]
  rfl

theorem mem_dropWhile {c : Char} {p : Char → Bool} :
    ∀ {l : List Char}, c ∈ l → p c = false → c ∈ l.dropWhile p
  | a :: t, hc, hw => by
    by_cases hpa : p a = true
    · rw [List.dropWhile_cons_of_pos hpa]
      rcases List.mem_cons.mp hc with rfl | hm
      · rw [hpa] at hw
        simp at hw
      · exact mem_dropWhile hm hw
    · rw [List.dropWhile_cons_of_neg hpa]
      exact hc

theorem trimChars_ne_nil {s : List Char} {c : Char} (hc : c ∈ s)
    (hw : isJsWhitespace c = false) : trimChars s ≠ [] := by
  unfold trimChars
  have h1 : c ∈ s.dropWhile isJsWhitespace := mem_dropWhile hc hw
  have h2 : c ∈ (s.dropWhile isJsWhitespace).reverse := List.mem_reverse.mpr h1
  have h3 : c ∈ (s.dropWhile isJsWhitespace).reverse.dropWhile isJsWhitespace :=
    mem_dropWhile h2 hw
  have h4 : c ∈ ((s.dropWhile isJsWhitespace).reverse.dropWhile isJsWhitespace).reverse :=
    List.mem_reverse.mpr h3
  exact List.ne_nil_of_mem h4

/-! ## Decimal digit lemmas -/

theorem digitChar_props : ∀ k < 10, isDigitChar (digitChar k) = true ∧
    digitVal (digitChar k) = k ∧ isJsWhitespace (digitChar k) = false ∧
    digitChar k ≠ '-' ∧ digitChar k ≠ '+' ∧ digitChar k ≠ '\n' ∧ digitChar k ≠ '|' := by
  decide

theorem char_ne_of_toNat_lt {c w : Char} (hd : isDigitChar c = true) (hw : w.toNat < 48) :
    c ≠ w := by
  intro h
  subst h
  unfold isDigitChar at hd
  simp only [Bool.and_eq_true, decide_eq_true_eq] at hd
  omega

theorem digit_not_ws {c : Char} (h : isDigitChar c = true) : isJsWhitespace c = false := by
  unfold isJsWhitespace
  have h32 : c ≠ ' ' := char_ne_of_toNat_lt h (by decide)
  have h9 : c ≠ '\t' := char_ne_of_toNat_lt h (by decide)
  have h10 : c ≠ '\n' := char_ne_of_toNat_lt h (by decide)
  have h13 : c ≠ '\r' := char_ne_of_toNat_lt h (by decide)
  have h11 : c ≠ '\x0b' := char_ne_of_toNat_lt h (by decide)
  have h12 : c ≠ '\x0c' := char_ne_of_toNat_lt h (by decide)
  simp [h32, h9, h10, h13, h11, h12]

theorem digitVal_lt_10 {c : Char} (h : isDigitChar c = true) : digitVal c < 10 := by
  unfold isDigitChar at h
  unfold digitVal
  simp only [Bool.and_eq_true, decide_eq_true_eq] at h
  omega

theorem digitChar_digitVal {c : Char} (h : isDigitChar c = true) :
    digitChar (digitVal c) = c := by
  unfold isDigitChar at h
  simp only [Bool.and_eq_true, decide_eq_true_eq] at h
  unfold digitChar digitVal
  have : 48 + (c.toNat - 48) = c.toNat := by omega
  rw [this]
  exact Char.ofNat_toNat c

theorem natToDigitsAux_small {fuel n : Nat} (h : n < 10) :
    natToDigitsAux (fuel + 1) n = [digitChar n] := by
  simp [natToDigitsAux, h]

theorem natToDigitsAux_big {fuel n : Nat} (h : 10 ≤ n) :
    natToDigitsAux (fuel + 1) n = natToDigitsAux fuel (n / 10) ++ [digitChar (n % 10)] := by
  simp [natToDigitsAux, Nat.not_lt.mpr h]

theorem natToDigits_pad3 {n : Nat} (h : n ≤ 999) :
    padStart3 (natToDigits n) =
      [digitChar (n / 100), digitChar (n / 10 % 10), digitChar (n % 10)] := by
  unfold natToDigits
  by_cases h1 : n < 10
  · rw [natToDigitsAux_small h1]
    have e1 : n / 100 = 0 := by omega
    have e2 : n / 10 % 10 = 0 := by omega
    have e3 : n % 10 = n := by omega
    rw [e1, e2, e3]
    rfl
  · by_cases h2 : n < 100
    · have h10 : 10 ≤ n := by omega
      obtain ⟨m, rfl⟩ : ∃ m, n = m + 1 := ⟨n - 1, by omega⟩
      rw [natToDigitsAux_big h10]
      obtain ⟨k, rfl⟩ : ∃ k, m = k + 1 := ⟨m - 1, by omega⟩
      rw [natToDigitsAux_small (show (k + 1 + 1) / 10 < 10 by omega)]
      have e1 : (k + 1 + 1) / 100 = 0 := by omega
      rw [e1]
      have e2 : (k + 1 + 1) / 10 % 10 = (k + 1 + 1) / 10 := by omega
      rw [e2]
      rfl
    · have h100 : 100 ≤ n := by omega
      obtain ⟨m, rfl⟩ : ∃ m, n = m + 1 := ⟨n - 1, by omega⟩
      rw [natToDigitsAux_big (by omega)]
      obtain ⟨k, rfl⟩ : ∃ k, m = k + 1 := ⟨m - 1, by omega⟩
      rw [natToDigitsAux_big (show 10 ≤ (k + 1 + 1) / 10 by omega)]
      obtain ⟨j, rfl⟩ : ∃ j, k = j + 1 := ⟨k - 1, by omega⟩
      rw [natToDigitsAux_small (show (j + 1 + 1 + 1) / 10 / 10 < 10 by omega)]
      have e1 : (j + 1 + 1 + 1) / 10 / 10 = (j + 1 + 1 + 1) / 100 := by omega
      rw [e1]
      rfl

theorem natToDigits_pad3_len {n : Nat} (h : n ≤ 999) :
    (padStart3 (natToDigits n)).length = 3 := by
  rw [natToDigits_pad3 h]
  rfl

theorem parseDigitsAcc_digits3 {d1 d2 d3 : Char} (h1 : isDigitChar d1 = true)
    (h2 : isDigitChar d2 = true) (h3 : isDigitChar d3 = true) :
    parseDigitsAcc [d1, d2, d3] 0 = 100 * digitVal d1 + 10 * digitVal d2 + digitVal d3 := by
  simp only [parseDigitsAcc, h1, h2, h3, if_pos]
  ring

theorem jsParseInt_digits3 {d1 d2 d3 : Char} (h1 : isDigitChar d1 = true)
    (h2 : isDigitChar d2 = true) (h3 : isDigitChar d3 = true) :
    jsParseInt [d1, d2, d3] =
      some ((100 * digitVal d1 + 10 * digitVal d2 + digitVal d3 : Nat) : Int) := by
  unfold jsParseInt
  have hdw : ([d1, d2, d3].dropWhile isJsWhitespace) = [d1, d2, d3] :=
    List.dropWhile_cons_of_neg (by rw [digit_not_ws h1]; simp)
  rw [hdw]
  simp only [if_neg (char_ne_of_toNat_lt h1 (show ('-').toNat < 48 by decide)),
    if_neg (char_ne_of_toNat_lt h1 (show ('+').toNat < 48 by decide)), h1, if_pos]
  rw [parseDigitsAcc_digits3 h1 h2 h3]

theorem jsParseInt_pad3 {n : Nat} (h : n ≤ 999) :
    jsParseInt (padStart3 (natToDigits n)) = some (n : Int) := by
  rw [natToDigits_pad3 h]
  have c1 := digitChar_props (n / 100) (by omega)
  have c2 := digitChar_props (n / 10 % 10) (by omega)
  have c3 := digitChar_props (n % 10) (by omega)
  rw [jsParseInt_digits3 c1.1 c2.1 c3.1, c1.2.1, c2.2.1, c3.2.1]
  congr 1
  have : 100 * (n / 100) + 10 * (n / 10 % 10) + n % 10 = n := by omega
  rw [this]

theorem digits3_canonical {d1 d2 d3 : Char} (h1 : isDigitChar d1 = true)
    (h2 : isDigitChar d2 = true) (h3 : isDigitChar d3 = true) :
    padStart3 (natToDigits (100 * digitVal d1 + 10 * digitVal d2 + digitVal d3)) =
      [d1, d2, d3] := by
  have hv1 := digitVal_lt_10 h1
  have hv2 := digitVal_lt_10 h2
  have hv3 := digitVal_lt_10 h3
  rw [natToDigits_pad3 (by omega)]
  have e1 : (100 * digitVal d1 + 10 * digitVal d2 + digitVal d3) / 100 = digitVal d1 := by
    omega
  have e2 : (100 * digitVal d1 + 10 * digitVal d2 + digitVal d3) / 10 % 10 = digitVal d2 := by
    omega
  have e3 : (100 * digitVal d1 + 10 * digitVal d2 + digitVal d3) % 10 = digitVal d3 := by
    omega
  rw [e1, e2, e3, digitChar_digitVal h1, digitChar_digitVal h2, digitChar_digitVal h3]

/-! ## Token-level codec lemmas -/

theorem parseSquareTok_formatSquare (u : Int) (pid : Char) (res : Bool)
    (h0 : 0 ≤ u) (h999 : u ≤ 999) (x y : Nat) :
    parseSquareTok (formatSquare ⟨u, pid, res⟩) x y = .ok ⟨u, pid, res⟩ := by
  have hto : u.toNat ≤ 999 := by omega
  have htok : formatSquare ⟨u, pid, res⟩ =
      [digitChar (u.toNat / 100), digitChar (u.toNat / 10 % 10), digitChar (u.toNat % 10),
        pid, if res then '+' else '.'] := by
    unfold formatSquare intToChars
    simp only
    rw [if_neg (by omega), natToDigits_pad3 hto]
    rfl
  rw [htok]
  have c1 := digitChar_props (u.toNat / 100) (by omega)
  have c2 := digitChar_props (u.toNat / 10 % 10) (by omega)
  have c3 := digitChar_props (u.toNat % 10) (by omega)
  unfold parseSquareTok
  rw [if_neg (by simp)]
  have htake : ([digitChar (u.toNat / 100), digitChar (u.toNat / 10 % 10),
      digitChar (u.toNat % 10), pid, if res then '+' else '.'].take 3) =
      [digitChar (u.toNat / 100), digitChar (u.toNat / 10 % 10),
        digitChar (u.toNat % 10)] := rfl
  rw [htake, jsParseInt_digits3 c1.1 c2.1 c3.1, c1.2.1, c2.2.1, c3.2.1]
  have hval : (100 * (u.toNat / 100) + 10 * (u.toNat / 10 % 10) + u.toNat % 10) = u.toNat := by
    omega
  rw [hval]
  cases res <;> simp [Int.toNat_of_nonneg h0]

theorem exists_five_of_length {tok : List Char} (h : tok.length = 5) :
    ∃ a b c d e, tok = [a, b, c, d, e] := by
  cases tok with
  | nil => simp at h
  | cons a t1 =>
    cases t1 with
    | nil => simp at h
    | cons b t2 =>
      cases t2 with
      | nil => simp at h
      | cons c t3 =>
        cases t3 with
        | nil => simp at h
        | cons d t4 =>
          cases t4 with
          | nil => simp at h
          | cons e t5 =>
            cases t5 with
            | nil => exact ⟨a, b, c, d, e, rfl⟩
            | cons f t6 => simp at h

theorem formatSquare_parseTok {tok : List Char} {s : GridSquare} {x y : Nat}
    (hok : parseSquareTok tok x y = .ok s) (hdig : (tok.take 3).all isDigitChar = true) :
    formatSquare s = tok := by
  have h5 : tok.length = 5 := by
    unfold parseSquareTok at hok
    by_cases h : tok.length ≠ 5
    · rw [if_pos h] at hok
      simp at hok
    · omega
  obtain ⟨a, b, c, d, e, rfl⟩ := exists_five_of_length h5
  have ha : isDigitChar a = true := by simp [List.all] at hdig; exact hdig.1
  have hb : isDigitChar b = true := by simp [List.all] at hdig; exact hdig.2.1
  have hc : isDigitChar c = true := by simp [List.all] at hdig; exact hdig.2.2
  unfold parseSquareTok at hok
  rw [if_neg (by simp)] at hok
  have htake : ([a, b, c, d, e].take 3) = [a, b, c] := rfl
  rw [htake, jsParseInt_digits3 ha hb hc] at hok
  have hok2 : (if e ≠ '+' ∧ e ≠ '.' then
      (Except.error (GridError.invalidTypeMarker x y) : Except GridError GridSquare)
      else Except.ok ⟨((100 * digitVal a + 10 * digitVal b + digitVal c : Nat) : Int), d,
        decide (e = '+')⟩) = Except.ok s := hok
  have hfmt : ∀ mk : Bool,
      formatSquare ⟨((100 * digitVal a + 10 * digitVal b + digitVal c : Nat) : Int), d, mk⟩ =
        [a, b, c, d, if mk then '+' else '.'] := by
    intro mk
    unfold formatSquare intToChars
    simp only
    rw [if_neg (by omega), Int.toNat_natCast, digits3_canonical ha hb hc]
    rfl
  by_cases h1 : e = '+'
  · subst h1
    rw [if_neg (by simp)] at hok2
    injection hok2 with hok2
    rw [← hok2, hfmt]
    rfl
  · by_cases h2 : e = '.'
    · subst h2
      rw [if_neg (by simp)] at hok2
      injection hok2 with hok2
      rw [← hok2, hfmt]
      rfl
    · rw [if_pos ⟨h1, h2⟩] at hok2
      simp at hok2

theorem parseSquareTok_isOk (tok : List Char) (x y : Nat) :
    (∃ s, parseSquareTok tok x y = .ok s) ↔
      (tok.length = 5 ∧ jsParseInt (tok.take 3) ≠ none ∧
        (tok.getD 4 ' ' = '.' ∨ tok.getD 4 ' ' = '+')) := by
  unfold parseSquareTok
  constructor
  · rintro ⟨s, hs⟩
    by_cases h5 : tok.length ≠ 5
    · rw [if_pos h5] at hs
      simp at hs
    · rw [if_neg h5] at hs
      refine ⟨by omega, ?_, ?_⟩
      · cases hjp : jsParseInt (tok.take 3) with
        | none => rw [hjp] at hs; simp at hs
        | some u => simp [hjp]
      · cases hjp : jsParseInt (tok.take 3) with
        | none => rw [hjp] at hs; simp at hs
        | some u =>
          rw [hjp] at hs
          simp only at hs
          by_cases hmk : (tok.getD 4 ' ' ≠ '+' ∧ tok.getD 4 ' ' ≠ '.')
          · rw [if_pos hmk] at hs
            simp at hs
          · push_neg at hmk
            by_cases h1 : tok.getD 4 ' ' = '+'
            · exact Or.inr h1
            · exact Or.inl (hmk h1)
  · rintro ⟨h5, hjp, hmk⟩
    rw [if_neg (by omega)]
    cases hjp' : jsParseInt (tok.take 3) with
    | none => exact absurd hjp' hjp
    | some u =>
      simp only
      rw [if_neg (by
        rintro ⟨hp, hd⟩
        rcases hmk with h | h
        · exact hd h
        · exact hp h)]
      exact ⟨_, rfl⟩

/-! ## Row- and grid-level codec lemmas -/

theorem parseTokens_ok {toks : List (List Char)} {sqs : List GridSquare}
    (h : List.Forall₂ (fun t s => ∀ x y, parseSquareTok t x y = .ok s) toks sqs) :
    ∀ x y, parseTokens toks x y = .ok sqs := by
  induction h with
  | nil => intro x y; rfl
  | cons ht hrest ih =>
    intro x y
    simp only [parseTokens]
    rw [ht x y, ih (x + 1) y]
    rfl

theorem parseRows_ok {n : Nat} {rs : List (List Char)} {sqss : List (List GridSquare)}
    (h : List.Forall₂ (fun r ss => (splitOnChar '|' r).length = n ∧
        ∀ y, parseTokens (splitOnChar '|' r) 0 y = .ok ss) rs sqss) :
    ∀ y, parseRows rs y n = .ok sqss := by
  induction h with
  | nil => intro y; rfl
  | cons hr hrest ih =>
    intro y
    simp only [parseRows]
    rw [if_neg (by rw [hr.1]; simp), hr.2 y, ih (y + 1)]
    rfl

theorem parseTokens_ok_inv : ∀ {toks : List (List Char)} {x y : Nat} {sqs : List GridSquare},
    parseTokens toks x y = .ok sqs →
    List.Forall₂ (fun t s => ∃ x' y', parseSquareTok t x' y' = .ok s) toks sqs := by
  intro toks
  induction toks with
  | nil =>
    intro x y sqs h
    simp only [parseTokens] at h
    injection h with h
    rw [← h]
    exact .nil
  | cons t ts ih =>
    intro x y sqs h
    simp only [parseTokens] at h
    cases hp : parseSquareTok t x y with
    | error e =>
      rw [hp] at h
      exact absurd h (by simp [Bind.bind, Except.bind])
    | ok s0 =>
      rw [hp] at h
      cases hr : parseTokens ts (x + 1) y with
      | error e =>
        rw [hr] at h
        exact absurd h (by simp [Bind.bind, Except.bind])
      | ok rest0 =>
        rw [hr] at h
        have h' : (Except.ok (s0 :: rest0) : Except GridError (List GridSquare)) = .ok sqs := h
        injection h' with h'
        rw [← h']
        exact .cons ⟨x, y, hp⟩ (ih hr)

theorem parseRows_ok_inv {n : Nat} : ∀ {rs : List (List Char)} {y : Nat}
    {sqss : List (List GridSquare)}, parseRows rs y n = .ok sqss →
    List.Forall₂ (fun r ss => (splitOnChar '|' r).length = n ∧
      ∃ y', parseTokens (splitOnChar '|' r) 0 y' = .ok ss) rs sqss := by
  intro rs
  induction rs with
  | nil =>
    intro y sqss h
    simp only [parseRows] at h
    injection h with h
    rw [← h]
    exact .nil
  | cons r rs ih =>
    intro y sqss h
    simp only [parseRows] at h
    by_cases hl : (splitOnChar '|' r).length ≠ n
    · rw [if_pos hl] at h
      simp at h
    · rw [if_neg hl] at h
      cases hp : parseTokens (splitOnChar '|' r) 0 y with
      | error e =>
        rw [hp] at h
        exact absurd h (by simp [Bind.bind, Except.bind])
      | ok ss0 =>
        rw [hp] at h
        cases hr : parseRows rs (y + 1) n with
        | error e =>
          rw [hr] at h
          exact absurd h (by simp [Bind.bind, Except.bind])
        | ok rest0 =>
          rw [hr] at h
          have h' : (Except.ok (ss0 :: rest0) :
              Except GridError (List (List GridSquare))) = .ok sqss := h
          injection h' with h'
          rw [← h']
          exact .cons ⟨by omega, y, hp⟩ (ih hr)

theorem parseTokens_isOk : ∀ (toks : List (List Char)) (x y : Nat),
    (∃ sqs, parseTokens toks x y = .ok sqs) ↔
      ∀ t ∈ toks, t.length = 5 ∧ jsParseInt (t.take 3) ≠ none ∧
        (t.getD 4 ' ' = '.' ∨ t.getD 4 ' ' = '+') := by
  intro toks
  induction toks with
  | nil =>
    intro x y
    constructor
    · intro _ t ht
      simp at ht
    · intro _
      exact ⟨[], rfl⟩
  | cons t ts ih =>
    intro x y
    constructor
    · rintro ⟨sqs, h⟩ t' ht'
      simp only [parseTokens] at h
      cases hp : parseSquareTok t x y with
      | error e =>
        rw [hp] at h
        exact absurd h (by simp [Bind.bind, Except.bind])
      | ok s0 =>
        rw [hp] at h
        cases hr : parseTokens ts (x + 1) y with
        | error e =>
          rw [hr] at h
          exact absurd h (by simp [Bind.bind, Except.bind])
        | ok rest0 =>
          rcases List.mem_cons.mp ht' with rfl | hm
          · exact (parseSquareTok_isOk t' x y).mp ⟨s0, hp⟩
          · exact ((ih (x + 1) y).mp ⟨rest0, hr⟩) t' hm
    · intro hall
      obtain ⟨s0, hp⟩ := (parseSquareTok_isOk t x y).mpr (hall t (List.mem_cons_self _ _))
      obtain ⟨rest, hr⟩ := (ih (x + 1) y).mpr fun t' ht' =>
        hall t' (List.mem_cons_of_mem _ ht')
      refine ⟨s0 :: rest, ?_⟩
      simp only [parseTokens]
      rw [hp, hr]
      rfl

theorem parseRows_isOk {n : Nat} : ∀ (rs : List (List Char)) (y : Nat),
    (∃ sqss, parseRows rs y n = .ok sqss) ↔
      ∀ r ∈ rs, (splitOnChar '|' r).length = n ∧
        ∀ t ∈ splitOnChar '|' r, t.length = 5 ∧ jsParseInt (t.take 3) ≠ none ∧
          (t.getD 4 ' ' = '.' ∨ t.getD 4 ' ' = '+') := by
  intro rs
  induction rs with
  | nil =>
    intro y
    constructor
    · intro _ r hr
      simp at hr
    · intro _
      exact ⟨[], rfl⟩
  | cons r rs ih =>
    intro y
    constructor
    · rintro ⟨sqss, h⟩ r' hr'
      simp only [parseRows] at h
      by_cases hl : (splitOnChar '|' r).length ≠ n
      · rw [if_pos hl] at h
        simp at h
      · rw [if_neg hl] at h
        cases hp : parseTokens (splitOnChar '|' r) 0 y with
        | error e =>
          rw [hp] at h
          exact absurd h (by simp [Bind.bind, Except.bind])
        | ok ss0 =>
          rw [hp] at h
          cases hrr : parseRows rs (y + 1) n with
          | error e =>
            rw [hrr] at h
            exact absurd h (by simp [Bind.bind, Except.bind])
          | ok rest0 =>
            rcases List.mem_cons.mp hr' with rfl | hm
            · exact ⟨by omega, (parseTokens_isOk _ 0 y).mp ⟨ss0, hp⟩⟩
            · exact ((ih (y + 1)).mp ⟨rest0, hrr⟩) r' hm
    · intro hall
      obtain ⟨ss0, hp⟩ := (parseTokens_isOk (splitOnChar '|' r) 0 y).mpr
        (hall r (List.mem_cons_self _ _)).2
      obtain ⟨rest, hrr⟩ := (ih (y + 1)).mpr fun r' hr' => hall r' (List.mem_cons_of_mem _ hr')
      refine ⟨ss0 :: rest, ?_⟩
      simp only [parseRows]
      rw [if_neg (by rw [(hall r (List.mem_cons_self _ _)).1]; simp), hp, hrr]
      rfl

theorem map_range_sq {g : Grid} (hwf : wellFormed g) :
    (List.range g.length).map (fun x => (List.range g.length).map fun y => sq g x y) = g := by
  have hcol : ∀ x, x < g.length → (g.getD x []).length = g.length := by
    intro x hx
    apply hwf
    rw [List.getD_eq_getElem?_getD, List.getElem?_eq_getElem hx]
    exact List.getElem_mem _
  conv_rhs => rw [← range_map_getD g []]
  apply List.map_congr_left
  intro x hx
  rw [List.mem_range] at hx
  show (List.range g.length).map (fun y => (g.getD x []).getD y default) = g.getD x []
  rw [← hcol x hx, range_map_getD]

theorem getD_mem {α : Type} {l : List α} {i : Nat} (hi : i < l.length) (d : α) :
    l.getD i d ∈ l := by
  rw [List.getD_eq_getElem?_getD, List.getElem?_eq_getElem hi]
  exact List.getElem_mem _

theorem forall₂_getD {α β : Type} {R : α → β → Prop} {l₁ : List α} {l₂ : List β}
    (h : List.Forall₂ R l₁ l₂) :
    ∀ (i : Nat) (d₁ : α) (d₂ : β), i < l₁.length → R (l₁.getD i d₁) (l₂.getD i d₂) := by
  induction h with
  | nil =>
    intro i d₁ d₂ hi
    simp at hi
  | cons hab ht ih =>
    intro i d₁ d₂ hi
    cases i with
    | zero => exact hab
    | succ j =>
      simp only [List.getD_cons_succ]
      exact ih j d₁ d₂ (by simp at hi; omega)

theorem forall₂_map_map {α β γ : Type} {R : β → γ → Prop} (f : α → β) (h : α → γ) :
    ∀ (l : List α), (∀ a ∈ l, R (f a) (h a)) → List.Forall₂ R (l.map f) (l.map h) := by
  intro l
  induction l with
  | nil =>
    intro _
    exact .nil
  | cons a rest ih =>
    intro hall
    exact .cons (hall a (List.mem_cons_self _ _))
      (ih fun a' ha' => hall a' (List.mem_cons_of_mem _ ha'))

theorem except_error_iff_not_ok {ε α : Type} (x : Except ε α) :
    (∃ e, x = .error e) ↔ ¬ ∃ a, x = .ok a := by
  cases x <;> simp

theorem formatSquare_eq_five {u : Int} (pid : Char) (res : Bool) (h0 : 0 ≤ u)
    (h999 : u ≤ 999) :
    formatSquare ⟨u, pid, res⟩ =
      [digitChar (u.toNat / 100), digitChar (u.toNat / 10 % 10), digitChar (u.toNat % 10),
        pid, if res then '+' else '.'] := by
  unfold formatSquare intToChars
  simp only
  rw [if_neg (by omega), natToDigits_pad3 (by omega)]
  rfl

theorem sep_not_mem_formatSquare {u : Int} {pid : Char} {res : Bool} {sep : Char}
    (h0 : 0 ≤ u) (h999 : u ≤ 999) (hpid : pid ≠ sep)
    (hd : ∀ k, k < 10 → digitChar k ≠ sep) (hdot : '.' ≠ sep) (hplus : '+' ≠ sep) :
    sep ∉ formatSquare ⟨u, pid, res⟩ := by
  rw [formatSquare_eq_five pid res h0 h999]
  intro hmem
  simp only [List.mem_cons, List.not_mem_nil, or_false] at hmem
  rcases hmem with h | h | h | h | h
  · exact hd _ (by omega) h.symm
  · exact hd _ (by omega) h.symm
  · exact hd _ (by omega) h.symm
  · exact hpid h.symm
  · cases res with
    | true =>
      simp at h
      exact hplus h.symm
    | false =>
      simp at h
      exact hdot h.symm

theorem parseGrid_eq_ok {s : List Char} {sqss : List (List GridSquare)}
    (hne : trimChars s ≠ [])
    (hpr : parseRows (splitOnChar '\n' s) 0 (splitOnChar '\n' s).length = .ok sqss) :
    parseGrid s = .ok (colMajor (splitOnChar '\n' s).length sqss) := by
  unfold parseGrid
  rw [if_neg hne]
  simp only [hpr]

theorem parseGrid_isOk (s : List Char) :
    (∃ g, parseGrid s = .ok g) ↔
      (trimChars s ≠ [] ∧ ∀ r ∈ splitOnChar '\n' s,
        (splitOnChar '|' r).length = (splitOnChar '\n' s).length ∧
        ∀ t ∈ splitOnChar '|' r, t.length = 5 ∧ jsParseInt (t.take 3) ≠ none ∧
          (t.getD 4 ' ' = '.' ∨ t.getD 4 ' ' = '+')) := by
  constructor
  · rintro ⟨g, hg⟩
    by_cases htr : trimChars s = []
    · unfold parseGrid at hg
      rw [if_pos htr] at hg
      simp at hg
    · refine ⟨htr, ?_⟩
      cases hpr : parseRows (splitOnChar '\n' s) 0 (splitOnChar '\n' s).length with
      | error e =>
        unfold parseGrid at hg
        rw [if_neg htr] at hg
        simp only [hpr] at hg
        simp at hg
      | ok sqss =>
        exact (parseRows_isOk (splitOnChar '\n' s) 0).mp ⟨sqss, hpr⟩
  · rintro ⟨htr, hall⟩
    obtain ⟨sqss, hpr⟩ := (parseRows_isOk (splitOnChar '\n' s) 0).mpr hall
    exact ⟨_, parseGrid_eq_ok htr hpr⟩

theorem parseGrid_serializeGrid {g : Grid} (h1 : 1 ≤ g.length) (hwf : wellFormed g)
    (hq : ∀ col ∈ g, ∀ q ∈ col, 0 ≤ q.units ∧ q.units ≤ 999 ∧
      q.playerId ≠ '\n' ∧ q.playerId ≠ '|') :
    parseGrid (serializeGrid g) = .ok g := by
  have hsq : ∀ x y, x < g.length → y < g.length →
      0 ≤ (sq g x y).units ∧ (sq g x y).units ≤ 999 ∧
      (sq g x y).playerId ≠ '\n' ∧ (sq g x y).playerId ≠ '|' := by
    intro x y hx hy
    have hcolmem : g.getD x [] ∈ g := getD_mem hx []
    have hlen : (g.getD x []).length = g.length := hwf _ hcolmem
    exact hq _ hcolmem _ (getD_mem (by omega) default)
  have hnotok : ∀ x y, x < g.length → y < g.length → ∀ sep, sep = '\n' ∨ sep = '|' →
      sep ∉ formatSquare (sq g x y) := by
    intro x y hx hy sep hsep
    have h := hsq x y hx hy
    have hnm : sep ∉ formatSquare ⟨(sq g x y).units, (sq g x y).playerId,
        (sq g x y).isResource⟩ := by
      apply sep_not_mem_formatSquare h.1 h.2.1
      · rcases hsep with rfl | rfl
        · exact h.2.2.1
        · exact h.2.2.2
      · intro k hk
        rcases hsep with rfl | rfl
        · exact (digitChar_props k hk).2.2.2.2.2.1
        · exact (digitChar_props k hk).2.2.2.2.2.2
      · rcases hsep with rfl | rfl <;> decide
      · rcases hsep with rfl | rfl <;> decide
    exact hnm
  have hparse : ∀ x y, x < g.length → y < g.length → ∀ x' y',
      parseSquareTok (formatSquare (sq g x y)) x' y' = .ok (sq g x y) := by
    intro x y hx hy x' y'
    have h := hsq x y hx hy
    exact parseSquareTok_formatSquare _ _ _ h.1 h.2.1 x' y'
  have hrowsplit : ∀ y, y < g.length →
      splitOnChar '|' (joinWith '|' ((List.range g.length).map fun x =>
        formatSquare (sq g x y))) =
      (List.range g.length).map fun x => formatSquare (sq g x y) := by
    intro y hy
    apply splitOnChar_joinWith
    · intro hnil
      have h0 : ((List.range g.length).map fun x => formatSquare (sq g x y)).length = 0 := by
        rw [hnil]
        rfl
      rw [List.length_map, List.length_range] at h0
      omega
    · intro p hp
      simp only [List.mem_map, List.mem_range] at hp
      obtain ⟨x, hx, rfl⟩ := hp
      exact hnotok x y hx hy '|' (Or.inr rfl)
  have hrows : splitOnChar '\n' (serializeGrid g) =
      (List.range g.length).map fun y =>
        joinWith '|' ((List.range g.length).map fun x => formatSquare (sq g x y)) := by
    unfold serializeGrid
    apply splitOnChar_joinWith
    · intro hnil
      have h0 : ((List.range g.length).map fun y =>
          joinWith '|' ((List.range g.length).map fun x =>
            formatSquare (sq g x y))).length = 0 := by
        rw [hnil]
        rfl
      rw [List.length_map, List.length_range] at h0
      omega
    · intro p hp
      simp only [List.mem_map, List.mem_range] at hp
      obtain ⟨y, hy, rfl⟩ := hp
      intro hmem
      rcases mem_of_mem_joinWith hmem with h | ⟨t, ht, hct⟩
      · exact absurd h (by decide)
      · simp only [List.mem_map, List.mem_range] at ht
        obtain ⟨x, hx, rfl⟩ := ht
        exact hnotok x y hx hy '\n' (Or.inl rfl) hct
  have hpr : parseRows ((List.range g.length).map fun y =>
      joinWith '|' ((List.range g.length).map fun x => formatSquare (sq g x y)))
      0 g.length =
      .ok ((List.range g.length).map fun y =>
        (List.range g.length).map fun x => sq g x y) := by
    refine parseRows_ok ?_ 0
    apply forall₂_map_map
    intro y hy
    rw [List.mem_range] at hy
    rw [hrowsplit y hy]
    refine ⟨by rw [List.length_map, List.length_range], ?_⟩
    intro y'
    refine parseTokens_ok ?_ 0 y'
    apply forall₂_map_map
    intro x hx
    rw [List.mem_range] at hx
    intro x' y''
    exact hparse x y hx hy x' y''
  have htrim : trimChars (serializeGrid g) ≠ [] := by
    have hx0 : (0 : Nat) < g.length := h1
    have h00 := hsq 0 0 hx0 hx0
    have hd : isDigitChar (digitChar ((sq g 0 0).units.toNat / 100)) = true :=
      (digitChar_props _ (by omega)).1
    have hmem1 : digitChar ((sq g 0 0).units.toNat / 100) ∈ formatSquare (sq g 0 0) := by
      show digitChar ((sq g 0 0).units.toNat / 100) ∈
        formatSquare ⟨(sq g 0 0).units, (sq g 0 0).playerId, (sq g 0 0).isResource⟩
      rw [formatSquare_eq_five _ _ h00.1 h00.2.1]
      exact List.mem_cons_self _ _
    have hmem2 : digitChar ((sq g 0 0).units.toNat / 100) ∈
        joinWith '|' ((List.range g.length).map fun x => formatSquare (sq g x 0)) :=
      mem_joinWith (by
        simp only [List.mem_map, List.mem_range]
        exact ⟨0, h1, rfl⟩) hmem1
    have hmem3 : digitChar ((sq g 0 0).units.toNat / 100) ∈ serializeGrid g := by
      unfold serializeGrid
      exact mem_joinWith (by
        simp only [List.mem_map, List.mem_range]
        exact ⟨0, h1, rfl⟩) hmem2
    exact trimChars_ne_nil hmem3 (digit_not_ws hd)
  have hlenrows : ((List.range g.length).map fun y =>
      joinWith '|' ((List.range g.length).map fun x => formatSquare (sq g x y))).length =
      g.length := by
    rw [List.length_map, List.length_range]
  have hcm : colMajor g.length ((List.range g.length).map fun y =>
      (List.range g.length).map fun x => sq g x y) = g := by
    unfold colMajor
    have hcong : ∀ x ∈ List.range g.length,
        ((List.range g.length).map fun y =>
          (List.range g.length).map fun x' => sq g x' y).map (fun r => r.getD x default) =
        (List.range g.length).map fun y => sq g x y := by
      intro x hx
      rw [List.mem_range] at hx
      rw [List.map_map]
      apply List.map_congr_left
      intro y hy
      simp only [Function.comp]
      exact getD_map_range _ hx default
    calc (List.range g.length).map (fun x =>
          ((List.range g.length).map fun y =>
            (List.range g.length).map fun x' => sq g x' y).map fun r => r.getD x default)
        = (List.range g.length).map fun x => (List.range g.length).map fun y => sq g x y :=
          List.map_congr_left hcong
      _ = g := map_range_sq hwf
  have hpr' : parseRows (splitOnChar '\n' (serializeGrid g)) 0
      (splitOnChar '\n' (serializeGrid g)).length =
      .ok ((List.range g.length).map fun y =>
        (List.range g.length).map fun x => sq g x y) := by
    rw [hrows, hlenrows]
    exact hpr
  have hfin := parseGrid_eq_ok htrim hpr'
  rw [hfin, hrows, hlenrows, hcm]

theorem serializeGrid_parseGrid {s : List Char} {g : Grid} (hok : parseGrid s = .ok g)
    (hdig : ∀ r ∈ splitOnChar '\n' s, ∀ t ∈ splitOnChar '|' r,
      (t.take 3).all isDigitChar = true) :
    serializeGrid g = s := by
  by_cases htr : trimChars s = []
  · unfold parseGrid at hok
    rw [if_pos htr] at hok
    simp at hok
  · unfold parseGrid at hok
    rw [if_neg htr] at hok
    cases hpr : parseRows (splitOnChar '\n' s) 0 (splitOnChar '\n' s).length with
    | error e =>
      simp only [hpr] at hok
      simp at hok
    | ok sqss =>
      simp only [hpr] at hok
      injection hok with hok
      subst hok
      have hFa := parseRows_ok_inv hpr
      have hlen2 : sqss.length = (splitOnChar '\n' s).length := hFa.length_eq.symm
      have hglen : (colMajor (splitOnChar '\n' s).length sqss).length =
          (splitOnChar '\n' s).length := by
        unfold colMajor
        rw [List.length_map, List.length_range]
      unfold serializeGrid
      rw [hglen]
      conv_rhs => rw [← joinWith_splitOnChar '\n' s]
      congr 1
      conv_rhs => rw [← range_map_getD (splitOnChar '\n' s) []]
      apply List.map_congr_left
      intro y hy
      rw [List.mem_range] at hy
      obtain ⟨hrlen, y', hpt⟩ := forall₂_getD hFa y [] [] hy
      have hFt := parseTokens_ok_inv hpt
      conv_rhs => rw [← joinWith_splitOnChar '|' ((splitOnChar '\n' s).getD y [])]
      congr 1
      conv_rhs =>
        rw [← range_map_getD (splitOnChar '|' ((splitOnChar '\n' s).getD y [])) []]
      rw [hrlen]
      apply List.map_congr_left
      intro x hx
      rw [List.mem_range] at hx
      have hsq' : sq (colMajor (splitOnChar '\n' s).length sqss) x y =
          (sqss.getD y []).getD x default := by
        unfold sq colMajor
        rw [getD_map_range _ hx [], getD_map_lt _ (by omega) default []]
      rw [hsq']
      have hx' : x < (splitOnChar '|' ((splitOnChar '\n' s).getD y [])).length := by
        rw [hrlen]
        exact hx
      obtain ⟨x'', y'', hok'⟩ := forall₂_getD hFt x [] default hx'
      apply formatSquare_parseTok hok'
      exact hdig _ (getD_mem hy []) _ (getD_mem hx' [])

/-- C6 counterexample: the token of the board string consisting of the single
square token with unit field made of the characters 0, x, 5 has unit digits
that are not decimal digits, yet parseGrid accepts it (JS parseInt reads the
maximal decimal prefix, here 0), refuting the claim that non-decimal unit
digits make the parser fail. -/
theorem gridParser_accepts_nondecimal_units :
    ((strL "0x5a.").take 3).all isDigitChar = false ∧
    parseGrid (strL "0x5a.") = .ok [[⟨0, 'a', false⟩]] := by
  exact ⟨by decide, by rfl⟩

/-- C6 (corrected): parseGrid fails exactly when the trimmed input is empty,
some row splits into a number of tokens different from the row count, some
token does not have length 5, JS parseInt rejects (NaN) some token's
three-character unit field, or some token's type marker is neither the dot
nor the plus character. The original wording's failure condition that the
unit digits are not decimal is replaced by the parseInt rejection, which is
strictly weaker. -/
theorem gridParser_error_conditions (s : List Char) :
    (∃ e, parseGrid s = .error e) ↔
      (trimChars s = [] ∨
        ∃ r ∈ splitOnChar '\n' s,
          (splitOnChar '|' r).length ≠ (splitOnChar '\n' s).length ∨
          ∃ t ∈ splitOnChar '|' r, t.length ≠ 5 ∨ jsParseInt (t.take 3) = none ∨
            (t.getD 4 ' ' ≠ '.' ∧ t.getD 4 ' ' ≠ '+')) := by
  rw [except_error_iff_not_ok, parseGrid_isOk]
  set_option push_neg.use_distrib true in push_neg
  rfl

/-- C5 counterexample: the grid codec does not round-trip unconditionally in
either direction. A board square holding 1000 units serializes to a
six-character token that the parser rejects, and the accepted board string
with unit field 0, x, 5 parses (parseInt gives 0) but re-serializes to the
canonical three-digit form, a different string. -/
theorem gridCodec_roundTrip_fails :
    (∃ e, parseGrid (serializeGrid [[⟨1000, 'a', false⟩]]) = .error e) ∧
    parseGrid (strL "0x5a.") = .ok [[⟨0, 'a', false⟩]] ∧
    serializeGrid [[(⟨0, 'a', false⟩ : GridSquare)]] ≠ strL "0x5a." := by
  exact ⟨⟨.invalidFormat 0 0, by rfl⟩, by rfl, by decide⟩

/-- C5 (corrected): the grid codec round-trips in both directions on the
values the game actually produces. A nonempty square board whose squares
carry between 0 and 999 units and whose player ids are not the separator
characters parses back exactly from its serialization; and an accepted
string in which every token's three unit characters are decimal digits is
exactly re-produced by serializing its parse. Without these side conditions
the round trip fails, see gridCodec_roundTrip_fails. -/
theorem gridCodec_roundTrip (g : Grid) (s : List Char) (G : Grid)
    (hg1 : 1 ≤ g.length) (hwf : wellFormed g)
    (hq : ∀ col ∈ g, ∀ q ∈ col, 0 ≤ q.units ∧ q.units ≤ 999 ∧
      q.playerId ≠ '\n' ∧ q.playerId ≠ '|')
    (hok : parseGrid s = .ok G)
    (hdig : ∀ r ∈ splitOnChar '\n' s, ∀ t ∈ splitOnChar '|' r,
      (t.take 3).all isDigitChar = true) :
    parseGrid (serializeGrid g) = .ok g ∧ serializeGrid G = s :=
  ⟨parseGrid_serializeGrid hg1 hwf hq, serializeGrid_parseGrid hok hdig⟩

/-- Witness for C5 at concrete inputs: the one-square board with 5 units of
player a on a resource square round-trips through serialization, and the
accepted board string 003b. is reproduced by serializing its parse. -/
theorem gridCodec_roundTrip_witness :
    parseGrid (serializeGrid [[⟨5, 'a', true⟩]]) = .ok [[⟨5, 'a', true⟩]] ∧
    serializeGrid [[(⟨3, 'b', false⟩ : GridSquare)]] = strL "003b." := by
  have h := gridCodec_roundTrip [[⟨5, 'a', true⟩]] (strL "003b.") [[⟨3, 'b', false⟩]]
    (by decide) (by unfold wellFormed; decide) (by decide) (by rfl) (by decide)
  exact ⟨h.1, h.2⟩

end Territory
